import Mathlib

/-!
# ImageSimilaritySearchGo: histogram similarity search

A shallow embedding of `Src/similaritySearch.go` (the files `similaritySearch.go`
and `TimeMeasurement/time_experiment.go` carry the same functions).

Conventions of the embedding.

* Go `int` values are `Int`; `/` on them is truncating division (`Int.tdiv`).
  Slice lengths stay far below `2^62`, so `i + n/k` cannot wrap.
* Go `float64` values are exact rationals (`ℚ`): rounding is not modelled, and
  these definitions cover the runs in which every float64 value is a number.
  The section on float64 values that need not be numbers repeats the
  normalisation, the comparator and the ranking with NaN and the infinities.
* A run that does not return normally is an `Except.error` carrying a `Fault`.
  Loops whose number of iterations is not bounded by their input take a fuel
  argument counting the loop bodies they may execute.
-/

namespace SimilaritySearch

/-- Ways in which a call can fail to return a value. -/
inductive Fault where
  /-- Integer division by zero (run-time panic). -/
  | divideByZero
  /-- Slice expression with bounds out of range (run-time panic). -/
  | sliceBounds
  /-- Index expression out of range (run-time panic). -/
  | indexOutOfRange
  /-- Shift by a negative amount (run-time panic). -/
  | negativeShift
  /-- Length out of range handed to `make` (run-time panic). -/
  | lenOutOfRange
  /-- The file could not be opened or decoded (`error` result). -/
  | decodeError
  /-- The loop was still running when the fuel ran out. -/
  | outOfFuel
  deriving DecidableEq, Repr

/-! ## Dataset partitioner -/

/-- The slice expression `files[i:end]`, once its bounds are known to be in range
(`0 ≤ i ≤ end ≤ cap(files)`; the loop below clamps `end` to `len(files)`). -/
def sliceOf {α : Type} (files : List α) (i end_ : Int) : List α :=
  (files.drop i.toNat).take (end_ - i).toNat

/-- The loop of `divideDataset`, entered with loop variable `i` and the groups
appended so far:
`for ; i < n; i += n / k { end := i + n/k; if end > n { end = n }; slices = append(slices, files[i:end]) }`.
`fuel` bounds the number of loop bodies executed. -/
def divideLoop {α : Type} (files : List α) (k : Int) :
    Nat → Int → List (List α) → Except Fault (List (List α))
  | fuel, i, slices =>
    if i < (files.length : Int) then
      match fuel with
      | 0 => .error .outOfFuel
      | fuel' + 1 =>
        if k = 0 then .error .divideByZero
        else
          let stride := (files.length : Int).tdiv k
          let end0 := i + stride
          let end1 := if end0 > (files.length : Int) then (files.length : Int) else end0
          if 0 ≤ i ∧ i ≤ end1 ∧ end1 ≤ (files.length : Int) then
            divideLoop files k fuel' (i + stride) (slices ++ [sliceOf files i end1])
          else .error .sliceBounds
    else .ok slices

/-- `divideDataset(files, k)`, run for at most `fuel` loop bodies. -/
def divideDataset {α : Type} (fuel : Nat) (files : List α) (k : Int) :
    Except Fault (List (List α)) :=
  divideLoop files k fuel 0 []

/-! ## Histogram comparator -/

/-- The type `Histo`: the base name of an image and its normalised histogram. -/
structure Histo where
  Name : String
  H : List ℚ
  deriving DecidableEq, Repr

/-- The function `min` of the program, `if a < b { return a }; return b`, on
numbers. `WithNaN.min` is the same function on float64 values that may be NaN. -/
def min (a b : ℚ) : ℚ := if a < b then a else b

/-- The loop of `compareHistograms`: `for i := range h1.H { intersection += min(h1.H[i], h2.H[i]) }`.
The two lists are the buckets of `h1` and of `h2` from the current index on; the loop
runs over the indices of `h1`, and `h2.H[i]` panics when `h2` has no bucket `i`. -/
def compareLoop : List ℚ → List ℚ → ℚ → Except Fault ℚ
  | [], _, intersection => .ok intersection
  | _ :: _, [], _ => .error .indexOutOfRange
  | a :: h1, b :: h2, intersection => compareLoop h1 h2 (intersection + min a b)

/-- `compareHistograms(h1, h2)`. -/
def compareHistograms (h1 h2 : Histo) : Except Fault ℚ :=
  compareLoop h1.H h2.H 0

/-- The intersection score in the words of the specification: the sum over all
buckets `i` of the smaller of `h1[i]` and `h2[i]`. -/
def intersectionScore (h1 h2 : List ℚ) : ℚ :=
  (List.zipWith (fun a b => Min.min a b) h1 h2).sum

/-! ## Histogram extractor -/

/-- The channel values `r, g, b` that `img.At(x, y).RGBA()` returns (`uint32`). -/
structure Pixel where
  r : Nat
  g : Nat
  b : Nat
  deriving DecidableEq, Repr

/-- A decoded image: its bounds and its pixel accessor. -/
structure Image where
  minX : Int
  minY : Int
  maxX : Int
  maxY : Int
  At : Int → Int → Pixel

/-- The pixels in the order the two nested loops visit them:
`for y := Min.Y; y < Max.Y; y++ { for x := Min.X; x < Max.X; x++ { ... } }`. -/
def Image.pixels (img : Image) : List Pixel :=
  (List.range (img.maxY - img.minY).toNat).flatMap fun dy =>
    (List.range (img.maxX - img.minX).toNat).map fun dx =>
      img.At (img.minX + (dx : Int)) (img.minY + (dy : Int))

/-- The library functions the program calls on paths and files. -/
structure Env where
  /-- `os.Open` followed by `image.Decode`; a failure is `Fault.decodeError`. -/
  decode : String → Except Fault Image
  /-- `filepath.Base`. -/
  base : String → String
  /-- `filepath.Join` of a directory and a name. -/
  join : String → String → String
  /-- `filepath.Ext`. -/
  ext : String → String

/-- Truncation to `uint32`. -/
def u32 (x : Nat) : Nat := x % 2 ^ 32

/-- The length `1 << (3*depth)` handed to `make([]float64, ...)`, an `int` of
64 bits. Up to depth 15 the `2^(3*depth)` values of 8 bytes stay within the
allocation limit of the runtime (`2^48` bytes) and the allocation is taken to
succeed. From depth 16 to 20 the size exceeds that limit, and at depth 21 the
shift wraps to the sign bit: `make` panics with "len out of range". From depth
22 on the shift wraps to `0`. -/
def histLen (depth : Nat) : Except Fault Nat :=
  if depth ≤ 15 then .ok (2 ^ (3 * depth))
  else if depth ≤ 21 then .error .lenOutOfRange
  else .ok 0

/-- The bucket index of one pixel:
`r = r >> (16 - depth)`, likewise `g` and `b`, then
`index := (r << (2 * depth)) + (g << depth) + b` in `uint32` arithmetic.
A shift count `16 - depth` below zero panics. -/
def bucketIndex (depth : Nat) (p : Pixel) : Except Fault Nat :=
  if 16 < depth then .error .negativeShift
  else
    let r := p.r / 2 ^ (16 - depth)
    let g := p.g / 2 ^ (16 - depth)
    let b := p.b / 2 ^ (16 - depth)
    .ok (u32 (u32 (u32 (r * 2 ^ (2 * depth)) + u32 (g * 2 ^ depth)) + b))

/-- The pixel loop of `computeHistogram`: `histogram[index]++; totalPixels++` for
every pixel. -/
def countLoop (depth : Nat) : List Pixel → List ℚ → Nat → Except Fault (List ℚ × Nat)
  | [], histogram, totalPixels => .ok (histogram, totalPixels)
  | p :: ps, histogram, totalPixels =>
    match bucketIndex depth p with
    | .error e => .error e
    | .ok index =>
      match histogram[index]? with
      | none => .error .indexOutOfRange
      | some c => countLoop depth ps (histogram.set index (c + 1)) (totalPixels + 1)

/-- `computeHistogram(imagePath, depth)`. An `error` result of the program is
`Fault.decodeError`; the other faults are panics. With `totalPixels = 0` the
program divides `0.0` by `0.0`, which is NaN in `float64`; the rationals have no
NaN and the quotient here is `0`: either way a histogram is returned, and no
statement about this definition speaks about the bucket values of an image
without pixels. `WithNaN.computeHistogram` returns the NaN buckets. -/
def computeHistogram (env : Env) (imagePath : String) (depth : Nat) : Except Fault Histo :=
  match env.decode imagePath with
  | .error _ => .error .decodeError
  | .ok img =>
    match histLen depth with
    | .error e => .error e
    | .ok len =>
      match countLoop depth img.pixels (List.replicate len 0) 0 with
      | .error e => .error e
      | .ok (histogram, totalPixels) =>
        .ok { Name := env.base imagePath, H := histogram.map fun c => c / (totalPixels : ℚ) }

/-- Whether the pixel loop counts the pixel in bucket `i`. -/
def mapsTo (depth i : Nat) (p : Pixel) : Bool :=
  match bucketIndex depth p with
  | .ok index => index == i
  | .error _ => false

/-- The number of pixels of the list that the pixel loop counts in bucket `i`. -/
def pixelsInBucket (depth : Nat) (ps : List Pixel) (i : Nat) : Nat :=
  ps.countP (mapsTo depth i)

/-- A decoded image with empty bounds (no pixel). -/
def emptyImage : Image := { minX := 0, minY := 0, maxX := 0, maxY := 0, At := fun _ _ => ⟨0, 0, 0⟩ }

/-- An environment in which every path decodes to the image without pixels. -/
def emptyImageEnv : Env :=
  { decode := fun _ => .ok emptyImage, base := id, join := fun d n => d ++ "/" ++ n,
    ext := fun _ => ".jpg" }

/-- A 2 × 2 image: a red column and a blue column. -/
def sampleImage : Image :=
  { minX := 0, minY := 0, maxX := 2, maxY := 2,
    At := fun x _ => if x = 0 then ⟨65535, 0, 0⟩ else ⟨0, 0, 65535⟩ }

/-- An environment in which every path decodes to `sampleImage`. -/
def sampleEnv : Env :=
  { decode := fun _ => .ok sampleImage, base := id, join := fun d n => d ++ "/" ++ n,
    ext := fun _ => ".jpg" }

/-! ## Worker task -/

/-- What the program reads of an `os.DirEntry`. -/
structure DirEntry where
  Name : String
  IsDir : Bool
  deriving DecidableEq, Repr

/-- `processSlice`: the histograms sent to `histogramsChan`, in order. An `error`
from `computeHistogram` is printed and the entry skipped; a panic ends the run. -/
def processSlice (env : Env) (imageDatasetDirectory : String) (depth : Nat) :
    List DirEntry → Except Fault (List Histo)
  | [] => .ok []
  | file :: rest =>
    if !file.IsDir && env.ext file.Name == ".jpg" then
      match computeHistogram env (env.join imageDatasetDirectory file.Name) depth with
      | .error .decodeError => processSlice env imageDatasetDirectory depth rest
      | .error e => .error e
      | .ok histo =>
        match processSlice env imageDatasetDirectory depth rest with
        | .error e => .error e
        | .ok sent => .ok (histo :: sent)
    else processSlice env imageDatasetDirectory depth rest

/-- The histogram `processSlice` sends for one directory entry, if any: the
entry is not a directory, its extension is exactly `.jpg`, and
`computeHistogram` succeeds on it. -/
def sentFor (env : Env) (imageDatasetDirectory : String) (depth : Nat) (file : DirEntry) :
    Option Histo :=
  if !file.IsDir && env.ext file.Name == ".jpg" then
    match computeHistogram env (env.join imageDatasetDirectory file.Name) depth with
    | .ok histo => some histo
    | .error _ => none
  else none

/-- The histograms `main` receives from `histogramsChan`: one task per slice
sends what `processSlice` sends, and the channel delivers all of them in some
order. -/
def Received (env : Env) (imageDatasetDirectory : String) (depth : Nat)
    (slices : List (List DirEntry)) (received : List Histo) : Prop :=
  ∃ sents : List (List Histo),
    List.Forall₂ (fun slice sent => processSlice env imageDatasetDirectory depth slice = .ok sent)
      slices sents ∧
    received.Perm sents.flatten

/-- An environment with one file that cannot be decoded; the other paths decode
to `sampleImage`. -/
def mixedEnv : Env :=
  { decode := fun p => if p = "data/bad.jpg" then .error .decodeError else .ok sampleImage,
    base := id,
    join := fun d n => d ++ "/" ++ n,
    ext := fun n =>
      if n = "a.jpg" ∨ n = "bad.jpg" ∨ n = "c.jpg" ∨ n = "album.jpg" then ".jpg"
      else if n = "notes.txt" then ".txt" else "" }

/-! ## Aggregator -/

/-- The map assignment `similarityScores[name] = score`, the map being a list of
entries with distinct keys. -/
def mapSet : List (String × ℚ) → String → ℚ → List (String × ℚ)
  | [], name, score => [(name, score)]
  | (n, s) :: rest, name, score =>
    if n = name then (n, score) :: rest else (n, s) :: mapSet rest name score

/-- The receive loop of `main`:
`for histo := range histogramsChan { similarityScores[histo.Name] = compareHistograms(queryHisto, histo) }`,
over the histograms in the order they arrive. -/
def collectScores (queryHisto : Histo) :
    List Histo → List (String × ℚ) → Except Fault (List (String × ℚ))
  | [], similarityScores => .ok similarityScores
  | histo :: rest, similarityScores =>
    match compareHistograms queryHisto histo with
    | .error e => .error e
    | .ok score => collectScores queryHisto rest (mapSet similarityScores histo.Name score)

/-- The last histogram of the sequence that carries the given name, if any. -/
def lastNamed : List Histo → String → Option Histo
  | [], _ => none
  | histo :: rest, name =>
    match lastNamed rest name with
    | some later => some later
    | none => if histo.Name = name then some histo else none

/-! ## float64 values that need not be numbers

The definitions above compute with exact rationals: they describe the runs of
the program in which every float64 value is a number. An image without pixels
makes `computeHistogram` divide `0.0` by `0.0`. The definitions below repeat the
normalisation, the comparator and the ranking of `main` on float64 values that
may be NaN or infinite; finite values are still exact rationals. -/

/-- A float64 value: a number, NaN, or an infinity. -/
inductive F64 where
  | fin (q : ℚ)
  | nan
  | posInf
  | negInf
  deriving DecidableEq

/-- The comparison `a < b` of float64 values: false as soon as one side is NaN. -/
def F64.lt : F64 → F64 → Bool
  | .fin a, .fin b => decide (a < b)
  | .fin _, .posInf => true
  | .negInf, .fin _ => true
  | .negInf, .posInf => true
  | _, _ => false

/-- The sum `a + b` of float64 values. -/
def F64.add : F64 → F64 → F64
  | .fin a, .fin b => .fin (a + b)
  | .nan, _ => .nan
  | _, .nan => .nan
  | .posInf, .negInf => .nan
  | .negInf, .posInf => .nan
  | .posInf, _ => .posInf
  | _, .posInf => .posInf
  | .negInf, _ => .negInf
  | _, .negInf => .negInf

/-- The quotient `x / float64(n)` for an `int` count `n ≥ 0`: `0.0 / 0.0` is NaN
and a non-zero number divided by `0.0` is an infinity. -/
def F64.divCount : F64 → Nat → F64
  | .fin a, 0 => if a = 0 then .nan else if 0 < a then .posInf else .negInf
  | .fin a, n + 1 => .fin (a / ((n + 1 : Nat) : ℚ))
  | .nan, _ => .nan
  | .posInf, _ => .posInf
  | .negInf, _ => .negInf

namespace WithNaN

/-- The type `Histo`, its buckets being float64 values. -/
structure Histo where
  Name : String
  H : List F64
  deriving DecidableEq

/-- The function `min` of the program: `if a < b { return a }; return b`. -/
def min (a b : F64) : F64 := if a.lt b then a else b

/-- The loop of `compareHistograms`, as `SimilaritySearch.compareLoop`. -/
def compareLoop : List F64 → List F64 → F64 → Except Fault F64
  | [], _, intersection => .ok intersection
  | _ :: _, [], _ => .error .indexOutOfRange
  | a :: h1, b :: h2, intersection => compareLoop h1 h2 (intersection.add (min a b))

/-- `compareHistograms(h1, h2)`; `var intersection float64` starts at `0`. -/
def compareHistograms (h1 h2 : Histo) : Except Fault F64 :=
  compareLoop h1.H h2.H (.fin 0)

/-- `computeHistogram(imagePath, depth)`, as `SimilaritySearch.computeHistogram`
but for the division `histogram[i] /= float64(totalPixels)`, which is the
division of float64 values. The counts are whole numbers and stay exact. -/
def computeHistogram (env : Env) (imagePath : String) (depth : Nat) : Except Fault Histo :=
  match env.decode imagePath with
  | .error _ => .error .decodeError
  | .ok img =>
    match histLen depth with
    | .error e => .error e
    | .ok len =>
      match countLoop depth img.pixels (List.replicate len 0) 0 with
      | .error e => .error e
      | .ok (histogram, totalPixels) =>
        .ok { Name := env.base imagePath,
              H := histogram.map fun c => (F64.fin c).divCount totalPixels }

end WithNaN

/-- The type `nameScorePair`. -/
structure nameScorePair where
  Name : String
  Score : F64
  deriving DecidableEq

/-- The comparison handed to `sort.Slice`: `pairs[i].Score > pairs[j].Score`. -/
def less (a b : nameScorePair) : Bool := b.Score.lt a.Score

/-- The inner loop of the insertion sort of Go's `sort` package,
`for j := i; j > a && less(j, j-1); j-- { swap(j, j-1) }`: `x` is the element at
index `i` and the list holds the elements before it, the nearest first. The
result holds the same elements and `x` in their new places, again the last
place first. -/
def insertBack (x : nameScorePair) : List nameScorePair → List nameScorePair
  | [] => [x]
  | y :: before => if less x y then y :: insertBack x before else x :: y :: before

/-- The insertion sort of Go's `sort` package, `for i := a + 1; i < b; i++` around
the inner loop. -/
def insertionSort (pairs : List nameScorePair) : List nameScorePair :=
  (pairs.foldl (fun before x => insertBack x before) []).reverse

/-- `sort.Slice(pairs, less)` on a slice of at most 12 elements, for which the
`sort` package runs its insertion sort. Longer slices are not modelled. -/
def sortSlice (pairs : List nameScorePair) : Option (List nameScorePair) :=
  if pairs.length ≤ 12 then some (insertionSort pairs) else none

/-- The print loop `for i := 0; i < len(pairs) && i < 5; i++`: the pairs printed. -/
def printed (pairs : List nameScorePair) : List nameScorePair := pairs.take 5

/-- The end of `main`, from the slice `pairs` as the iteration over the map
`similarityScores` filled it: sort, then print the first five. -/
def report (pairs : List nameScorePair) : Option (List nameScorePair) :=
  (sortSlice pairs).map printed

/-! ## Partitioner: proofs -/

/-- Appending the slice `files[j : min (j+s) n]` and then the rest from `j+s` on
gives the rest from `j` on. -/
theorem sliceOf_append_drop {α : Type} (files : List α) (j s : Nat) (e : Int)
    (he : e = if (j : Int) + s > files.length then (files.length : Int) else (j : Int) + s) :
    sliceOf files (j : Int) e ++ files.drop (j + s) = files.drop j := by
  unfold sliceOf
  by_cases h : (j : Int) + s > files.length
  · rw [if_pos h] at he
    subst he
    have h1 : files.length < j + s := by exact_mod_cast h
    have hnil : files.drop (j + s) = [] := List.drop_eq_nil_of_le (by omega)
    rw [hnil, List.append_nil, Int.toNat_ofNat]
    apply List.take_of_length_le
    rw [List.length_drop]
    omega
  · rw [if_neg h] at he
    subst he
    have h2 : ((j : Int) + s - j).toNat = s := by omega
    rw [h2, Int.toNat_ofNat, ← List.drop_drop, List.take_append_drop]

/-- With a stride of at least one the loop returns once `fuel` covers the
entries still to be visited, and it appends a partition of those entries. -/
theorem divideLoop_ok {α : Type} (files : List α) (k : Int) (s : Nat)
    (hs : (files.length : Int).tdiv k = s) (hs1 : 1 ≤ s) (hk : k ≠ 0) :
    ∀ (fuel j : Nat) (slices : List (List α)), files.length ≤ j + fuel →
      ∃ groups, divideLoop files k fuel (j : Int) slices = .ok groups ∧
        groups.flatten = slices.flatten ++ files.drop j := by
  intro fuel
  induction fuel with
  | zero =>
    intro j slices hj
    refine ⟨slices, ?_, ?_⟩
    · unfold divideLoop
      rw [if_neg (by omega)]
    · rw [List.drop_eq_nil_of_le (by omega), List.append_nil]
  | succ fuel ih =>
    intro j slices hj
    by_cases hlt : (j : Int) < files.length
    · unfold divideLoop
      rw [if_pos hlt]
      simp only [if_neg hk, hs]
      have hbounds : 0 ≤ (j : Int) ∧
          (j : Int) ≤ (if (j : Int) + s > files.length then (files.length : Int) else (j : Int) + s) ∧
          (if (j : Int) + s > files.length then (files.length : Int) else (j : Int) + s)
            ≤ files.length := by
        split_ifs <;> omega
      rw [if_pos hbounds]
      have hcast : (j : Int) + (s : Int) = ((j + s : Nat) : Int) := by push_cast; rfl
      obtain ⟨groups, hg, hflat⟩ := ih (j + s)
        (slices ++ [sliceOf files (j : Int)
          (if (j : Int) + s > files.length then (files.length : Int) else (j : Int) + s)])
        (by omega)
      refine ⟨groups, ?_, ?_⟩
      · rw [← hg]
        simp only [hcast]
      · rw [hflat, List.flatten_append, List.flatten_singleton, List.append_assoc,
          sliceOf_append_drop files j s _ rfl]
    · refine ⟨slices, ?_, ?_⟩
      · unfold divideLoop
        rw [if_neg hlt]
      · rw [List.drop_eq_nil_of_le (by omega), List.append_nil]

/-- With a stride of zero the loop variable stays at `0` and the loop never
exits: whatever the fuel, it is used up. -/
theorem divideLoop_stuck {α : Type} (files : List α) (k : Int)
    (hn : 0 < files.length) (hk : k ≠ 0) (hs : (files.length : Int).tdiv k = 0) :
    ∀ (fuel : Nat) (slices : List (List α)),
      divideLoop files k fuel 0 slices = .error .outOfFuel := by
  intro fuel
  induction fuel with
  | zero =>
    intro slices
    unfold divideLoop
    rw [if_pos (by omega)]
  | succ fuel ih =>
    intro slices
    unfold divideLoop
    rw [if_pos (by omega)]
    have h0 : ¬ ((0 : Int) > files.length) := by omega
    simp only [if_neg hk, hs, add_zero, if_neg h0]
    rw [if_pos (by omega)]
    exact ih _

/-- C1: for every list of N entries and every K with 1 ≤ K ≤ N, `divideDataset`
returns (as soon as the fuel covers N loop bodies) groups whose concatenation in
order is the input list, so the groups are contiguous, every entry lies in
exactly one group and the order is kept; for N = 0 the result has no group. -/
theorem divideDataset_partitions {α : Type} (files : List α) (k : Int) (fuel : Nat)
    (hk : 1 ≤ k) (hkn : k ≤ files.length ∨ files = []) (hfuel : files.length ≤ fuel) :
    ∃ groups, divideDataset fuel files k = .ok groups ∧ groups.flatten = files ∧
      (files = [] → groups = []) := by
  rcases hkn with hkn | hnil
  · have hdiv : 1 ≤ (files.length : Int) / k := by
      have := Int.ediv_le_ediv (by omega : 0 < k) hkn
      rwa [Int.ediv_self (by omega)] at this
    have hs : (files.length : Int).tdiv k = (((files.length : Int) / k).toNat : Int) := by
      rw [Int.tdiv_eq_ediv (by omega) (by omega), Int.toNat_of_nonneg (by omega)]
    obtain ⟨groups, hg, hflat⟩ :=
      divideLoop_ok files k _ hs (by omega) (by omega) fuel 0 [] (by omega)
    refine ⟨groups, hg, ?_, ?_⟩
    · simpa using hflat
    · intro hnil
      subst hnil
      simp at hkn
      omega
  · subst hnil
    refine ⟨[], ?_, rfl, fun _ => rfl⟩
    unfold divideDataset divideLoop
    simp

/-- Witness for C1: seven entries in three groups' worth of stride. -/
theorem divideDataset_partitions_witness :
    ∃ groups, divideDataset 7 [1, 2, 3, 4, 5, 6, 7] 3 = .ok groups ∧
      groups.flatten = [1, 2, 3, 4, 5, 6, 7] ∧
      (([1, 2, 3, 4, 5, 6, 7] : List Nat) = [] → groups = []) :=
  divideDataset_partitions [1, 2, 3, 4, 5, 6, 7] 3 7 (by decide) (Or.inl (by decide)) (by decide)

/-- C2 (the program at one entry and K = 2): the stride `1 / 2` is `0`, the loop
variable never advances, and `divideDataset` does not return for any amount of
fuel. -/
theorem divideDataset_one_entry_two_workers_diverges (fuel : Nat) :
    divideDataset fuel [DirEntry.mk "a.jpg" false] 2 = .error .outOfFuel :=
  divideLoop_stuck _ 2 (by decide) (by decide) (by decide) fuel []

/-! ## Comparator: proofs -/

/-- The program's `min` is the minimum of the order on the rationals. -/
theorem min_eq_inf (a b : ℚ) : min a b = Min.min a b := by
  unfold min
  split_ifs with h
  · exact (min_eq_left h.le).symm
  · exact (min_eq_right (not_lt.mp h)).symm

/-- When `h2` has a bucket for every bucket of `h1`, the loop returns the
accumulator plus the intersection score. -/
theorem compareLoop_eq : ∀ (h1 h2 : List ℚ) (acc : ℚ), h1.length ≤ h2.length →
    compareLoop h1 h2 acc = .ok (acc + intersectionScore h1 h2)
  | [], _, acc, _ => by simp [compareLoop, intersectionScore]
  | _ :: _, [], _, h => by simp at h
  | a :: h1, b :: h2, acc, h => by
    rw [compareLoop, compareLoop_eq h1 h2 _ (by simpa using h), min_eq_inf]
    simp [intersectionScore, add_assoc]

/-- On histograms of equal length `compareHistograms` returns the intersection score. -/
theorem compareHistograms_eq (h1 h2 : Histo) (hlen : h1.H.length = h2.H.length) :
    compareHistograms h1 h2 = .ok (intersectionScore h1.H h2.H) := by
  unfold compareHistograms
  rw [compareLoop_eq _ _ _ hlen.le, zero_add]

theorem intersectionScore_nonneg : ∀ (a b : List ℚ),
    (∀ x ∈ a, 0 ≤ x) → (∀ y ∈ b, 0 ≤ y) → 0 ≤ intersectionScore a b
  | [], _, _, _ => by simp [intersectionScore]
  | _ :: _, [], _, _ => by simp [intersectionScore]
  | x :: a, y :: b, ha, hb => by
    have ih := intersectionScore_nonneg a b
      (fun z hz => ha z (List.mem_cons_of_mem _ hz)) (fun z hz => hb z (List.mem_cons_of_mem _ hz))
    have hx := ha x (List.mem_cons_self _ _)
    have hy := hb y (List.mem_cons_self _ _)
    unfold intersectionScore at ih ⊢
    simp only [List.zipWith_cons_cons, List.sum_cons]
    exact add_nonneg (le_min hx hy) ih

/-- With non-negative buckets the score is zero exactly when no index carries a
non-zero bucket in both lists. -/
theorem intersectionScore_eq_zero_iff : ∀ (a b : List ℚ),
    (∀ x ∈ a, 0 ≤ x) → (∀ y ∈ b, 0 ≤ y) →
    (intersectionScore a b = 0 ↔ ¬ ∃ i : Nat, a.getD i 0 ≠ 0 ∧ b.getD i 0 ≠ 0)
  | [], _, _, _ => by simp [intersectionScore]
  | _ :: _, [], _, _ => by simp [intersectionScore]
  | x :: a, y :: b, ha, hb => by
    have ha' : ∀ z ∈ a, 0 ≤ z := fun z hz => ha z (List.mem_cons_of_mem _ hz)
    have hb' : ∀ z ∈ b, 0 ≤ z := fun z hz => hb z (List.mem_cons_of_mem _ hz)
    have ih := intersectionScore_eq_zero_iff a b ha' hb'
    have hn := intersectionScore_nonneg a b ha' hb'
    have hx := ha x (List.mem_cons_self _ _)
    have hy := hb y (List.mem_cons_self _ _)
    have hm : 0 ≤ Min.min x y := le_min hx hy
    have hcons : intersectionScore (x :: a) (y :: b) = Min.min x y + intersectionScore a b := by
      simp [intersectionScore]
    rw [hcons]
    constructor
    · intro h0
      have hm0 : Min.min x y = 0 := by linarith
      have hi0 : intersectionScore a b = 0 := by linarith
      rintro ⟨i, hi⟩
      cases i with
      | zero =>
        simp only [List.getD_cons_zero] at hi
        rcases min_choice x y with h | h
        · exact hi.1 (by rw [← h]; exact hm0)
        · exact hi.2 (by rw [← h]; exact hm0)
      | succ i =>
        simp only [List.getD_cons_succ] at hi
        exact ih.mp hi0 ⟨i, hi⟩
    · intro hne
      have hi0 : intersectionScore a b = 0 :=
        ih.mpr fun ⟨i, hi⟩ => hne ⟨i + 1, by simpa only [List.getD_cons_succ] using hi⟩
      have hxy : x = 0 ∨ y = 0 := by
        by_contra hc
        push_neg at hc
        exact hne ⟨0, by simpa only [List.getD_cons_zero] using hc⟩
      have hm0 : Min.min x y = 0 := by
        rcases hxy with h | h
        · rw [h]; exact min_eq_left hy
        · rw [h]; exact min_eq_right hx
      rw [hm0, hi0, add_zero]

/-- C4: for two histograms of equal length with non-negative buckets,
`compareHistograms` returns 0 exactly when no bucket index is non-zero in both. -/
theorem compareHistograms_zero_iff_disjoint (h1 h2 : Histo)
    (hlen : h1.H.length = h2.H.length)
    (hnn1 : ∀ x ∈ h1.H, 0 ≤ x) (hnn2 : ∀ x ∈ h2.H, 0 ≤ x) :
    compareHistograms h1 h2 = .ok 0 ↔ ¬ ∃ i : Nat, h1.H.getD i 0 ≠ 0 ∧ h2.H.getD i 0 ≠ 0 := by
  rw [compareHistograms_eq h1 h2 hlen, ← intersectionScore_eq_zero_iff _ _ hnn1 hnn2]
  constructor
  · intro h
    injection h
  · intro h
    rw [h]

/-- Witness for C4: two histograms with disjoint support. -/
theorem compareHistograms_zero_iff_disjoint_witness :
    compareHistograms ⟨"a.jpg", [1, 0, 0]⟩ ⟨"b.jpg", [0, 1/3, 2/3]⟩ = .ok 0 ↔
      ¬ ∃ i : Nat, ([1, 0, 0] : List ℚ).getD i 0 ≠ 0 ∧ ([0, 1/3, 2/3] : List ℚ).getD i 0 ≠ 0 :=
  compareHistograms_zero_iff_disjoint ⟨"a.jpg", [1, 0, 0]⟩ ⟨"b.jpg", [0, 1/3, 2/3]⟩ rfl
    (by simp) (by norm_num)

/-! ## Extractor: proofs -/

/-- A 16-bit channel value shifted right by `16 - depth` keeps `depth` bits. -/
theorem quantised_lt (x depth : Nat) (hx : x < 65536) (hd : depth ≤ 16) :
    x / 2 ^ (16 - depth) < 2 ^ depth := by
  rw [Nat.div_lt_iff_lt_mul (by positivity), ← pow_add]
  have h16 : depth + (16 - depth) = 16 := by omega
  rw [h16]
  exact hx

/-- Three digits below `a` form a number below `a * a * a`. -/
theorem three_digits_lt (a rq gq bq : Nat) (hr : rq < a) (hg : gq < a) (hb : bq < a) :
    rq * (a * a) + gq * a + bq < a * a * a := by
  have h1 : (rq + 1) * (a * a) ≤ a * (a * a) := Nat.mul_le_mul_right _ hr
  have h2 : (gq + 1) * a ≤ a * a := Nat.mul_le_mul_right _ hg
  have h3 : a * a * a = a * (a * a) := by ring
  have h4 : (rq + 1) * (a * a) = rq * (a * a) + a * a := by ring
  have h5 : (gq + 1) * a = gq * a + a := by ring
  omega

/-- For depths up to 10 and 16-bit channels no `uint32` operation wraps, and the
index is below the number of buckets. -/
theorem bucketIndex_eq (depth : Nat) (p : Pixel) (hd : depth ≤ 10)
    (hr : p.r < 65536) (hg : p.g < 65536) (hb : p.b < 65536) :
    bucketIndex depth p = .ok (p.r / 2 ^ (16 - depth) * 2 ^ (2 * depth)
        + p.g / 2 ^ (16 - depth) * 2 ^ depth + p.b / 2 ^ (16 - depth)) ∧
      p.r / 2 ^ (16 - depth) * 2 ^ (2 * depth)
        + p.g / 2 ^ (16 - depth) * 2 ^ depth + p.b / 2 ^ (16 - depth) < 2 ^ (3 * depth) := by
  have hrq := quantised_lt p.r depth hr (by omega)
  have hgq := quantised_lt p.g depth hg (by omega)
  have hbq := quantised_lt p.b depth hb (by omega)
  have h2 : 2 ^ (2 * depth) = 2 ^ depth * 2 ^ depth := by rw [← pow_add]; congr 1; omega
  have h3 : 2 ^ (3 * depth) = 2 ^ depth * 2 ^ depth * 2 ^ depth := by
    rw [← pow_add, ← pow_add]; congr 1; omega
  have hlt := three_digits_lt (2 ^ depth) _ _ _ hrq hgq hbq
  rw [← h3, ← h2] at hlt
  have hpow : 2 ^ (3 * depth) ≤ 2 ^ 32 := Nat.pow_le_pow_right (by norm_num) (by omega)
  refine ⟨?_, hlt⟩
  unfold bucketIndex u32
  rw [if_neg (by omega)]
  simp only
  clear h2 h3 hrq hgq hbq
  generalize p.r / 2 ^ (16 - depth) * 2 ^ (2 * depth) = A at hlt ⊢
  generalize p.g / 2 ^ (16 - depth) * 2 ^ depth = B at hlt ⊢
  generalize p.b / 2 ^ (16 - depth) = C at hlt ⊢
  generalize 2 ^ (3 * depth) = N at hlt hpow
  rw [Nat.mod_eq_of_lt (a := A) (by omega), Nat.mod_eq_of_lt (a := B) (by omega),
    Nat.mod_eq_of_lt (a := A + B) (by omega), Nat.mod_eq_of_lt (by omega)]

/-- Incrementing one bucket raises the sum of the buckets by one. -/
theorem sum_set_succ : ∀ (l : List ℚ) (j : Nat) (c : ℚ), l[j]? = some c →
    (l.set j (c + 1)).sum = l.sum + 1
  | [], _, _, h => by simp at h
  | x :: l, 0, c, h => by
    simp only [List.getElem?_cons_zero, Option.some.injEq] at h
    subst h
    simp only [List.set_cons_zero, List.sum_cons]
    ring
  | x :: l, j + 1, c, h => by
    simp only [List.getElem?_cons_succ] at h
    simp only [List.set_cons_succ, List.sum_cons, sum_set_succ l j c h]
    ring

/-- The pixel loop on pixels whose indices are all in range: it returns, keeps
the number of buckets, adds to every bucket the number of pixels counted in it,
adds one to the sum per pixel and one to `totalPixels` per pixel. -/
theorem countLoop_spec (depth : Nat) : ∀ (ps : List Pixel) (histogram : List ℚ) (t : Nat),
    (∀ p ∈ ps, ∃ j, bucketIndex depth p = .ok j ∧ j < histogram.length) →
    ∃ out, countLoop depth ps histogram t = .ok (out, t + ps.length) ∧
      out.length = histogram.length ∧
      (∀ i c, histogram[i]? = some c → out[i]? = some (c + (pixelsInBucket depth ps i : ℚ))) ∧
      out.sum = histogram.sum + (ps.length : ℚ)
  | [], histogram, t, _ => by
    refine ⟨histogram, rfl, rfl, ?_, ?_⟩
    · intro i c h
      simp [pixelsInBucket, h]
    · simp
  | p :: ps, histogram, t, hin => by
    obtain ⟨j, hj, hjlt⟩ := hin p (List.mem_cons_self _ _)
    obtain ⟨c, hc⟩ : ∃ c, histogram[j]? = some c := ⟨histogram[j], List.getElem?_eq_getElem hjlt⟩
    have hin' : ∀ q ∈ ps, ∃ i, bucketIndex depth q = .ok i ∧
        i < (histogram.set j (c + 1)).length := by
      intro q hq
      obtain ⟨i, hi, hilt⟩ := hin q (List.mem_cons_of_mem _ hq)
      exact ⟨i, hi, by simpa using hilt⟩
    obtain ⟨out, hout, hlen, hget, hsum⟩ := countLoop_spec depth ps (histogram.set j (c + 1)) (t + 1) hin'
    refine ⟨out, ?_, ?_, ?_, ?_⟩
    · rw [countLoop]
      simp only [hj, hc, hout]
      congr 2
      simp only [List.length_cons]
      omega
    · simpa using hlen
    · intro i d hd
      by_cases hij : j = i
      · subst hij
        have hcd : c = d := by rw [hc] at hd; exact Option.some.inj hd
        subst hcd
        have h1 := hget j (c + 1) (by rw [List.getElem?_set_self hjlt])
        rw [h1]
        have hm : mapsTo depth j p = true := by simp [mapsTo, hj]
        simp only [pixelsInBucket, List.countP_cons, hm, if_true]
        push_cast
        congr 1
        ring
      · have h1 := hget i d (by rw [List.getElem?_set_ne hij]; exact hd)
        rw [h1]
        have hm : mapsTo depth i p = false := by simp [mapsTo, hj, hij]
        simp [pixelsInBucket, List.countP_cons, hm]
    · rw [hsum, sum_set_succ histogram j c hc]
      simp only [List.length_cons]
      push_cast
      ring

/-- `computeHistogram` on a decodable image with 16-bit channels, at a depth up
to 10: it returns a histogram named after the base name, with `2^(3*depth)`
buckets, bucket `i` being the share of the pixels counted in bucket `i`; with at
least one pixel the buckets sum to 1. -/
theorem computeHistogram_spec (env : Env) (imagePath : String) (img : Image) (depth : Nat)
    (hdec : env.decode imagePath = .ok img) (hd : depth ≤ 10)
    (h16 : ∀ p ∈ img.pixels, p.r < 65536 ∧ p.g < 65536 ∧ p.b < 65536) :
    ∃ h, computeHistogram env imagePath depth = .ok h ∧ h.Name = env.base imagePath ∧
      h.H.length = 2 ^ (3 * depth) ∧
      (∀ i, i < 2 ^ (3 * depth) →
        h.H[i]? = some ((pixelsInBucket depth img.pixels i : ℚ) / (img.pixels.length : ℚ))) ∧
      (img.pixels ≠ [] → h.H.sum = 1) := by
  have hin : ∀ p ∈ img.pixels, ∃ j, bucketIndex depth p = .ok j ∧
      j < (List.replicate (2 ^ (3 * depth)) (0 : ℚ)).length := by
    intro p hp
    obtain ⟨hr, hg, hb⟩ := h16 p hp
    obtain ⟨he, hlt⟩ := bucketIndex_eq depth p hd hr hg hb
    exact ⟨_, he, by simpa using hlt⟩
  obtain ⟨out, hout, hlen, hget, hsum⟩ := countLoop_spec depth img.pixels _ 0 hin
  have hL : histLen depth = .ok (2 ^ (3 * depth)) := by
    unfold histLen
    rw [if_pos (by omega)]
  refine ⟨⟨env.base imagePath, out.map fun c => c / (img.pixels.length : ℚ)⟩, ?_, rfl, ?_, ?_, ?_⟩
  · unfold computeHistogram
    simp only [hdec, hL, hout, zero_add]
  · simpa using hlen
  · intro i hi
    have h0 : (List.replicate (2 ^ (3 * depth)) (0 : ℚ))[i]? = some 0 := by
      rw [List.getElem?_replicate, if_pos hi]
    rw [List.getElem?_map, hget i 0 h0, zero_add]
    rfl
  · intro hne
    have hpos : (img.pixels.length : ℚ) ≠ 0 := by
      have := List.length_pos.mpr hne
      exact_mod_cast this.ne'
    have hdiv : (out.map fun c => c / (img.pixels.length : ℚ)).sum
        = out.sum / (img.pixels.length : ℚ) := by
      simp only [div_eq_mul_inv]
      rw [List.sum_map_mul_right]
      simp
    show (out.map fun c => c / (img.pixels.length : ℚ)).sum = 1
    rw [hdiv, hsum]
    simp only [List.sum_replicate, smul_zero, zero_add]
    exact div_self hpos

/-- A decodable image without pixels, at a depth up to 15: the pixel loop leaves
`totalPixels` at `0` and `computeHistogram` returns a histogram, not an error. -/
theorem computeHistogram_no_pixels (env : Env) (imagePath : String) (img : Image) (depth : Nat)
    (hdec : env.decode imagePath = .ok img) (hpix : img.pixels = []) (hd : depth ≤ 15) :
    countLoop depth img.pixels (List.replicate (2 ^ (3 * depth)) 0) 0
        = .ok (List.replicate (2 ^ (3 * depth)) 0, 0) ∧
      ∃ h, computeHistogram env imagePath depth = .ok h ∧ h.H.length = 2 ^ (3 * depth) := by
  have hL : histLen depth = .ok (2 ^ (3 * depth)) := by
    unfold histLen
    rw [if_pos (by omega)]
  refine ⟨by rw [hpix]; rfl, ?_⟩
  unfold computeHistogram
  simp only [hdec, hL, hpix, countLoop]
  exact ⟨_, rfl, by simp⟩

/-- C8 (the program at an image with empty bounds, depth 3): the pixel loop ends
with `totalPixels = 0`, the 512 buckets are divided by that zero count, and
`computeHistogram` returns a histogram; it does not return an error. -/
theorem computeHistogram_empty_image_returns_histogram :
    countLoop 3 emptyImage.pixels (List.replicate (2 ^ (3 * 3)) 0) 0
        = .ok (List.replicate (2 ^ (3 * 3)) 0, 0) ∧
      ∃ h, computeHistogram emptyImageEnv "empty.jpg" 3 = .ok h ∧ h.H.length = 2 ^ (3 * 3) :=
  computeHistogram_no_pixels emptyImageEnv "empty.jpg" emptyImage 3 rfl (by decide) (by decide)

/-! ## Aggregator: the map keeps its keys distinct -/

/-- An entry of the map after an assignment is the assigned one or an old one. -/
theorem mem_mapSet : ∀ (m : List (String × ℚ)) (name : String) (score : ℚ) (e : String × ℚ),
    e ∈ mapSet m name score → e = (name, score) ∨ e ∈ m
  | [], name, score, e, h => by
    simp only [mapSet, List.mem_singleton] at h
    exact Or.inl h
  | (n, s) :: rest, name, score, e, h => by
    unfold mapSet at h
    split_ifs at h with hn
    · rcases List.mem_cons.mp h with h | h
      · left; rw [h, hn]
      · exact Or.inr (List.mem_cons_of_mem _ h)
    · rcases List.mem_cons.mp h with h | h
      · right
        rw [h]
        exact List.mem_cons_self _ _
      · rcases mem_mapSet rest name score e h with h | h
        · exact Or.inl h
        · exact Or.inr (List.mem_cons_of_mem _ h)

/-- An assignment keeps the keys, or adds the new key at the end. -/
theorem keys_mapSet : ∀ (m : List (String × ℚ)) (name : String) (score : ℚ),
    (mapSet m name score).map Prod.fst =
      if name ∈ m.map Prod.fst then m.map Prod.fst else m.map Prod.fst ++ [name]
  | [], name, score => by simp [mapSet]
  | (n, s) :: rest, name, score => by
    unfold mapSet
    by_cases hn : n = name
    · subst hn
      simp
    · have hn' : ¬ name = n := fun h => hn h.symm
      rw [if_neg hn]
      simp only [List.map_cons, List.mem_cons, hn', false_or, keys_mapSet rest name score]
      split_ifs <;> simp

/-- An assignment keeps the keys of the map distinct. -/
theorem nodup_keys_mapSet (m : List (String × ℚ)) (name : String) (score : ℚ)
    (h : (m.map Prod.fst).Nodup) : ((mapSet m name score).map Prod.fst).Nodup := by
  rw [keys_mapSet]
  split_ifs with hmem
  · exact h
  · rw [List.nodup_append]
    refine ⟨h, List.nodup_singleton _, ?_⟩
    intro a ha hb
    rw [List.mem_singleton] at hb
    exact hmem (hb ▸ ha)

/-- The receive loop keeps the keys distinct, and every entry of the final map
is an entry of the initial map or the score of a received histogram of that name. -/
theorem collectScores_spec (queryHisto : Histo) : ∀ (hs : List Histo) (m m' : List (String × ℚ)),
    collectScores queryHisto hs m = .ok m' → (m.map Prod.fst).Nodup →
    (m'.map Prod.fst).Nodup ∧
      ∀ e ∈ m', e ∈ m ∨ ∃ h ∈ hs, h.Name = e.1 ∧ compareHistograms queryHisto h = .ok e.2
  | [], m, m', hc, hnd => by
    simp only [collectScores, Except.ok.injEq] at hc
    subst hc
    exact ⟨hnd, fun e he => Or.inl he⟩
  | histo :: rest, m, m', hc, hnd => by
    unfold collectScores at hc
    cases hscore : compareHistograms queryHisto histo with
    | error e => rw [hscore] at hc; simp at hc
    | ok score =>
      rw [hscore] at hc
      obtain ⟨hnd', hmem⟩ := collectScores_spec queryHisto rest _ m' hc
        (nodup_keys_mapSet m histo.Name score hnd)
      refine ⟨hnd', fun e he => ?_⟩
      rcases hmem e he with h | ⟨h, hh, hn, hs⟩
      · rcases mem_mapSet m histo.Name score e h with h | h
        · right
          refine ⟨histo, List.mem_cons_self _ _, ?_, ?_⟩
          · rw [h]
          · rw [h]; exact hscore
        · exact Or.inl h
      · exact Or.inr ⟨h, List.mem_cons_of_mem _ hh, hn, hs⟩

/-- The receive loop returns when every received histogram has at least as many
buckets as the query histogram. -/
theorem collectScores_ok (queryHisto : Histo) : ∀ (hs : List Histo) (m : List (String × ℚ)),
    (∀ h ∈ hs, queryHisto.H.length ≤ h.H.length) → ∃ m', collectScores queryHisto hs m = .ok m'
  | [], m, _ => ⟨m, rfl⟩
  | histo :: rest, m, hlen => by
    unfold collectScores compareHistograms
    rw [compareLoop_eq _ _ _ (hlen histo (List.mem_cons_self _ _))]
    exact collectScores_ok queryHisto rest _ fun h hh => hlen h (List.mem_cons_of_mem _ hh)

/-! ## Partitioner: the shape of the groups -/

/-- The slice appended at loop variable `j` holds `s` entries, or the entries
that are left when fewer than `s` are. -/
theorem sliceOf_length {α : Type} (files : List α) (j s : Nat) :
    (sliceOf files (j : Int)
      (if (j : Int) + s > files.length then (files.length : Int) else (j : Int) + s)).length
      = Min.min s (files.length - j) := by
  unfold sliceOf
  rw [List.length_take, List.length_drop, Int.toNat_ofNat]
  split_ifs with h
  · have h1 : ((files.length : Int) - j).toNat = files.length - j := by omega
    rw [h1]
    omega
  · have h2 : ((j : Int) + s - j).toNat = s := by omega
    rw [h2]

/-- With a stride `s` of at least one the loop appends `⌈(n - j) / s⌉` groups:
each holds between 1 and `s` entries, each but the last holds exactly `s`, and
all hold `s` when `s` divides the number of entries left. -/
theorem divideLoop_shape {α : Type} (files : List α) (k : Int) (s : Nat)
    (hs : (files.length : Int).tdiv k = s) (hs1 : 1 ≤ s) (hk : k ≠ 0) :
    ∀ (fuel j : Nat) (slices : List (List α)), files.length ≤ j + fuel →
      ∃ tail, divideLoop files k fuel (j : Int) slices = .ok (slices ++ tail) ∧
        tail.length = (files.length - j + s - 1) / s ∧
        (∀ g ∈ tail, 1 ≤ g.length ∧ g.length ≤ s) ∧
        (∀ g ∈ tail.dropLast, g.length = s) ∧
        (s ∣ files.length - j → ∀ g ∈ tail, g.length = s) := by
  intro fuel
  induction fuel with
  | zero =>
    intro j slices hj
    refine ⟨[], ?_, ?_, ?_, ?_, ?_⟩
    · unfold divideLoop
      rw [if_neg (by omega), List.append_nil]
    · have h0 : files.length - j = 0 := by omega
      rw [h0, zero_add]
      exact (Nat.div_eq_of_lt (by omega)).symm
    · intro g hg; simp at hg
    · intro g hg; simp at hg
    · intro _ g hg; simp at hg
  | succ fuel ih =>
    intro j slices hj
    by_cases hlt : (j : Int) < files.length
    · have hjn : j < files.length := by exact_mod_cast hlt
      have hbounds : 0 ≤ (j : Int) ∧
          (j : Int) ≤ (if (j : Int) + s > files.length then (files.length : Int) else (j : Int) + s) ∧
          (if (j : Int) + s > files.length then (files.length : Int) else (j : Int) + s)
            ≤ files.length := by
        split_ifs <;> omega
      have hcast : (j : Int) + (s : Int) = ((j + s : Nat) : Int) := by push_cast; rfl
      obtain ⟨tail, ht, hlen, hall, hinit, hdvd⟩ := ih (j + s)
        (slices ++ [sliceOf files (j : Int)
          (if (j : Int) + s > files.length then (files.length : Int) else (j : Int) + s)])
        (by omega)
      have hg := sliceOf_length files j s
      refine ⟨sliceOf files (j : Int)
          (if (j : Int) + s > files.length then (files.length : Int) else (j : Int) + s) :: tail,
        ?_, ?_, ?_, ?_, ?_⟩
      · unfold divideLoop
        rw [if_pos hlt]
        simp only [if_neg hk, hs]
        rw [if_pos hbounds]
        simp only [hcast] at ht ⊢
        rw [ht, List.append_assoc, List.singleton_append]
      · rw [List.length_cons, hlen]
        by_cases hle : j + s ≤ files.length
        · have e : files.length - j + s - 1 = (files.length - (j + s) + s - 1) + s := by omega
          rw [e, Nat.add_div_right _ (by omega)]
        · have e0 : files.length - (j + s) + s - 1 = s - 1 := by omega
          rw [e0, Nat.div_eq_of_lt (by omega)]
          have e1 : files.length - j + s - 1 = (files.length - j - 1) + s := by omega
          rw [e1, Nat.add_div_right _ (by omega), Nat.div_eq_of_lt (by omega)]
      · intro g hgm
        rcases List.mem_cons.mp hgm with h | h
        · rw [h, hg]
          omega
        · exact hall g h
      · intro g hgm
        cases tail with
        | nil => simp at hgm
        | cons t ts =>
          rw [List.dropLast_cons₂] at hgm
          rcases List.mem_cons.mp hgm with h | h
          · have hpos : 0 < (files.length - (j + s) + s - 1) / s := by
              rw [← hlen]; simp
            have hge : s ≤ files.length - (j + s) + s - 1 := by
              by_contra hc
              rw [Nat.div_eq_of_lt (by omega)] at hpos
              exact absurd hpos (by decide)
            rw [h, hg]
            omega
          · exact hinit g h
      · intro hd g hgm
        obtain ⟨c, hc⟩ := hd
        have hc1 : 1 ≤ c := by
          rcases Nat.eq_zero_or_pos c with h0 | h0
          · rw [h0, Nat.mul_zero] at hc; omega
          · exact h0
        have hsc : s ≤ s * c := Nat.le_mul_of_pos_right s hc1
        rcases List.mem_cons.mp hgm with h | h
        · rw [h, hg]
          omega
        · refine hdvd ⟨c - 1, ?_⟩ g h
          rw [Nat.mul_sub, Nat.mul_one]
          omega
    · refine ⟨[], ?_, ?_, ?_, ?_, ?_⟩
      · unfold divideLoop
        rw [if_neg hlt, List.append_nil]
      · have h0 : files.length - j = 0 := by omega
        rw [h0, zero_add]
        exact (Nat.div_eq_of_lt (by omega)).symm
      · intro g hg; simp at hg
      · intro g hg; simp at hg
      · intro _ g hg; simp at hg


/-- More fuel does not change a result the loop has returned. -/
theorem divideLoop_fuel_mono {α : Type} (files : List α) (k : Int) :
    ∀ (fuel fuel' : Nat) (i : Int) (slices r : List (List α)), fuel ≤ fuel' →
      divideLoop files k fuel i slices = .ok r → divideLoop files k fuel' i slices = .ok r := by
  intro fuel
  induction fuel with
  | zero =>
    intro fuel' i slices r _ h
    by_cases hlt : i < (files.length : Int)
    · unfold divideLoop at h
      rw [if_pos hlt] at h
      simp at h
    · unfold divideLoop at h ⊢
      rw [if_neg hlt] at h ⊢
      exact h
  | succ fuel ih =>
    intro fuel' i slices r hle h
    obtain ⟨f, rfl⟩ : ∃ f, fuel' = f + 1 := ⟨fuel' - 1, by omega⟩
    by_cases hlt : i < (files.length : Int)
    · unfold divideLoop at h ⊢
      rw [if_pos hlt] at h ⊢
      by_cases hk : k = 0
      · simp only [if_pos hk] at h
        simp at h
      · simp only [if_neg hk] at h ⊢
        by_cases hb : 0 ≤ i ∧
            i ≤ (if i + (files.length : Int).tdiv k > files.length then (files.length : Int)
              else i + (files.length : Int).tdiv k) ∧
            (if i + (files.length : Int).tdiv k > files.length then (files.length : Int)
              else i + (files.length : Int).tdiv k) ≤ files.length
        · rw [if_pos hb] at h ⊢
          exact ih f _ _ _ (by omega) h
        · rw [if_neg hb] at h
          simp at h
    · unfold divideLoop at h ⊢
      rw [if_neg hlt] at h ⊢
      exact h

/-- For `1 ≤ k ≤ n` the stride `n / k` of the program is the natural number
`n / k`, and it is at least one. -/
theorem stride_eq {α : Type} (files : List α) (k : Int) (hk : 1 ≤ k)
    (hkn : k ≤ files.length) :
    (files.length : Int).tdiv k = ((files.length / k.toNat : Nat) : Int) ∧
      1 ≤ files.length / k.toNat := by
  have hkk : ((k.toNat : Nat) : Int) = k := Int.toNat_of_nonneg (by omega)
  constructor
  · rw [Int.tdiv_eq_ediv (by omega) (by omega), Int.natCast_div, hkk]
  · exact (Nat.one_le_div_iff (by omega)).mpr (by omega)

/-- C19: for 1 ≤ K ≤ N and stride s = ⌊N / K⌋, `divideDataset` returns exactly
⌈N / s⌉ groups (written `(N + s - 1) / s`); every group but the last holds
exactly s entries and the last holds between 1 and s; when K divides N these are
exactly K groups of N / K entries each. -/
theorem divideDataset_group_sizes {α : Type} (files : List α) (k : Int) (fuel : Nat)
    (hk : 1 ≤ k) (hkn : k ≤ files.length) (hfuel : files.length ≤ fuel) :
    ∃ groups, divideDataset fuel files k = .ok groups ∧
      groups.length = (files.length + files.length / k.toNat - 1) / (files.length / k.toNat) ∧
      (∀ g ∈ groups.dropLast, g.length = files.length / k.toNat) ∧
      (∀ g ∈ groups.getLast?, 1 ≤ g.length ∧ g.length ≤ files.length / k.toNat) ∧
      (k ∣ (files.length : Int) →
        (groups.length : Int) = k ∧ ∀ g ∈ groups, g.length = files.length / k.toNat) := by
  obtain ⟨hs, hs1⟩ := stride_eq files k hk hkn
  obtain ⟨tail, ht, hlen, hall, hinit, hdvd⟩ :=
    divideLoop_shape files k _ hs hs1 (by omega) fuel 0 [] (by omega)
  rw [List.nil_append] at ht
  rw [Nat.sub_zero] at hlen hdvd
  refine ⟨tail, ht, hlen, hinit, ?_, ?_⟩
  · intro g hg
    obtain ⟨hne, hgl⟩ := List.mem_getLast?_eq_getLast hg
    exact hall g (hgl ▸ List.getLast_mem hne)
  · intro hd
    have hkk : ((k.toNat : Nat) : Int) = k := Int.toNat_of_nonneg (by omega)
    have hd' : k.toNat ∣ files.length := by
      rw [← hkk] at hd
      exact Int.natCast_dvd_natCast.mp hd
    have hmul : files.length / k.toNat * k.toNat = files.length := Nat.div_mul_cancel hd'
    refine ⟨?_, hdvd ⟨k.toNat, hmul.symm⟩⟩
    have e : files.length + files.length / k.toNat - 1
        = (files.length / k.toNat - 1) + k.toNat * (files.length / k.toNat) := by
      rw [Nat.mul_comm, hmul]
      omega
    have hcount : tail.length = k.toNat := by
      rw [hlen, e, Nat.add_mul_div_right _ _ (by omega), Nat.div_eq_of_lt (by omega), zero_add]
    rw [hcount]
    exact hkk

/-- Witness for C19: seven entries and K = 3 give four groups with stride two. -/
theorem divideDataset_group_sizes_witness :
    ∃ groups, divideDataset 7 [1, 2, 3, 4, 5, 6, 7] 3 = .ok groups ∧
      groups.length
        = (([1, 2, 3, 4, 5, 6, 7] : List Nat).length
            + ([1, 2, 3, 4, 5, 6, 7] : List Nat).length / (3 : Int).toNat - 1)
          / (([1, 2, 3, 4, 5, 6, 7] : List Nat).length / (3 : Int).toNat) ∧
      (∀ g ∈ groups.dropLast,
        g.length = ([1, 2, 3, 4, 5, 6, 7] : List Nat).length / (3 : Int).toNat) ∧
      (∀ g ∈ groups.getLast?, 1 ≤ g.length ∧
        g.length ≤ ([1, 2, 3, 4, 5, 6, 7] : List Nat).length / (3 : Int).toNat) ∧
      ((3 : Int) ∣ (([1, 2, 3, 4, 5, 6, 7] : List Nat).length : Int) →
        (groups.length : Int) = 3 ∧
          ∀ g ∈ groups, g.length = ([1, 2, 3, 4, 5, 6, 7] : List Nat).length / (3 : Int).toNat) :=
  divideDataset_group_sizes [1, 2, 3, 4, 5, 6, 7] 3 7 (by decide) (by decide) (by decide)

/-- C15 (the program at seven entries and K = 3): the stride is `7 / 3 = 2` and
`divideDataset` returns four groups, one more than K. -/
theorem divideDataset_seven_entries_three_workers :
    divideDataset 7
        [DirEntry.mk "1.jpg" false, DirEntry.mk "2.jpg" false, DirEntry.mk "3.jpg" false,
          DirEntry.mk "4.jpg" false, DirEntry.mk "5.jpg" false, DirEntry.mk "6.jpg" false,
          DirEntry.mk "7.jpg" false] 3
      = .ok [[DirEntry.mk "1.jpg" false, DirEntry.mk "2.jpg" false],
          [DirEntry.mk "3.jpg" false, DirEntry.mk "4.jpg" false],
          [DirEntry.mk "5.jpg" false, DirEntry.mk "6.jpg" false],
          [DirEntry.mk "7.jpg" false]] := by
  rfl


/-- For 1 ≤ K ≤ N, whatever the fuel with which `divideDataset` returned, the
groups are not empty and the last group holds at most as many entries as the
first. -/
theorem divideDataset_last_le_first {α : Type} (files : List α) (k : Int) (fuel : Nat)
    (groups : List (List α)) (hk : 1 ≤ k) (hkn : k ≤ files.length)
    (h : divideDataset fuel files k = .ok groups) :
    ∃ first last, groups.head? = some first ∧ groups.getLast? = some last ∧
      last.length ≤ first.length := by
  obtain ⟨hs, hs1⟩ := stride_eq files k hk hkn
  obtain ⟨tail, ht, hlen, hall, hinit, _⟩ :=
    divideLoop_shape files k _ hs hs1 (by omega) (fuel + files.length) 0 [] (by omega)
  have h' := divideLoop_fuel_mono files k fuel (fuel + files.length) 0 [] groups (by omega) h
  rw [List.nil_append] at ht
  have hgt : groups = tail := by
    have e : (Except.ok groups : Except Fault (List (List α))) = .ok tail := h'.symm.trans ht
    injection e
  subst hgt
  rw [Nat.sub_zero] at hlen
  cases groups with
  | nil =>
    exfalso
    have hn : 1 ≤ files.length := by omega
    have hpos : 0 < (files.length + files.length / k.toNat - 1) / (files.length / k.toNat) :=
      Nat.div_pos (by omega) (by omega)
    rw [← hlen] at hpos
    simp at hpos
  | cons g rest =>
    cases rest with
    | nil => exact ⟨g, g, rfl, rfl, le_refl _⟩
    | cons g2 rest2 =>
      have hne : (g :: g2 :: rest2) ≠ [] := by simp
      refine ⟨g, (g :: g2 :: rest2).getLast hne, rfl, List.getLast?_eq_getLast _ hne, ?_⟩
      have hg : g.length = files.length / k.toNat :=
        hinit g (by rw [List.dropLast_cons₂]; exact List.mem_cons_self _ _)
      rw [hg]
      exact (hall _ (List.getLast_mem hne)).2

/-- C16 as stated fails: there are no N and K with 1 ≤ K ≤ N, N not divisible by
K, for which the last group returned by `divideDataset` holds more entries than
the first. -/
theorem no_last_group_larger_than_first :
    ¬ ∃ (files : List DirEntry) (k : Int) (fuel : Nat) (groups : List (List DirEntry))
        (first last : List DirEntry),
      1 ≤ k ∧ k ≤ files.length ∧ ¬ k ∣ (files.length : Int) ∧
        divideDataset fuel files k = .ok groups ∧
        groups.head? = some first ∧ groups.getLast? = some last ∧
        first.length < last.length := by
  rintro ⟨files, k, fuel, groups, first, last, hk, hkn, _, h, hf, hl, hlt⟩
  obtain ⟨f, l, hf', hl', hle⟩ := divideDataset_last_le_first files k fuel groups hk hkn h
  rw [hf] at hf'
  rw [hl] at hl'
  cases hf'
  cases hl'
  omega

/-- C16 as amended: for 1 ≤ K ≤ N the last group returned by `divideDataset`
holds at most as many entries as the first; and there are N and K with N not
divisible by K (seven entries, K = 3) for which it holds strictly fewer. -/
theorem last_group_holds_the_remainder {α : Type} (files : List α) (k : Int) (fuel : Nat)
    (hk : 1 ≤ k) (hkn : k ≤ files.length) (hfuel : files.length ≤ fuel) :
    (∃ groups first last, divideDataset fuel files k = .ok groups ∧
      groups.head? = some first ∧ groups.getLast? = some last ∧
      last.length ≤ first.length) ∧
    ∃ (fs : List Nat) (k' : Int) (gs : List (List Nat)) (f l : List Nat),
      1 ≤ k' ∧ k' ≤ fs.length ∧ ¬ k' ∣ (fs.length : Int) ∧
        divideDataset fs.length fs k' = .ok gs ∧
        gs.head? = some f ∧ gs.getLast? = some l ∧ l.length < f.length := by
  constructor
  · obtain ⟨groups, hg, _⟩ :=
      divideLoop_ok files k _ (stride_eq files k hk hkn).1 (stride_eq files k hk hkn).2
        (by omega) fuel 0 [] (by omega)
    obtain ⟨first, last, hf, hl, hle⟩ := divideDataset_last_le_first files k fuel groups hk hkn hg
    exact ⟨groups, first, last, hg, hf, hl, hle⟩
  · exact ⟨[1, 2, 3, 4, 5, 6, 7], 3, [[1, 2], [3, 4], [5, 6], [7]], [1, 2], [7],
      by decide, by decide, by decide, rfl, rfl, rfl, by decide⟩

/-- Witness for C16 as amended: five entries and K = 2. -/
theorem last_group_holds_the_remainder_witness :
    (∃ groups first last, divideDataset 5 [1, 2, 3, 4, 5] 2 = .ok groups ∧
      groups.head? = some first ∧ groups.getLast? = some last ∧
      last.length ≤ first.length) ∧
    ∃ (fs : List Nat) (k' : Int) (gs : List (List Nat)) (f l : List Nat),
      1 ≤ k' ∧ k' ≤ fs.length ∧ ¬ k' ∣ (fs.length : Int) ∧
        divideDataset fs.length fs k' = .ok gs ∧
        gs.head? = some f ∧ gs.getLast? = some l ∧ l.length < f.length :=
  last_group_holds_the_remainder [1, 2, 3, 4, 5] 2 5 (by decide) (by decide) (by decide)


/-! ## Extractor: the bucket index as a three-digit number -/

/-- Two digits in base `a` determine the number they form. -/
theorem two_digits_inj (a x1 y1 x2 y2 : Nat) (h1 : y1 < a) (h2 : y2 < a)
    (h : x1 * a + y1 = x2 * a + y2) : x1 = x2 ∧ y1 = y2 := by
  have hy : y1 = y2 := by
    have hm := congrArg (fun n => n % a) h
    simp only [Nat.add_comm (_ * a), Nat.add_mul_mod_self_right] at hm
    rwa [Nat.mod_eq_of_lt h1, Nat.mod_eq_of_lt h2] at hm
  subst hy
  have hx : x1 * a = x2 * a := by omega
  exact ⟨Nat.eq_of_mul_eq_mul_right (by omega) hx, rfl⟩

/-- C14: for every depth up to 10 (so from 1 to 10) and every pixel with 16-bit
channel values, the bucket index is `r_q * 2^(2D) + g_q * 2^D + b_q` with
`x_q = x / 2^(16 - D) < 2^D` and no `uint32` wrap; the index is below `2^(3D)`,
the number of buckets, and below `2^32`; and two pixels get the same index
exactly when their quantised triples are equal. -/
theorem bucketIndex_three_digits (depth : Nat) (p q : Pixel) (hd : depth ≤ 10)
    (hp : p.r < 65536 ∧ p.g < 65536 ∧ p.b < 65536)
    (hq : q.r < 65536 ∧ q.g < 65536 ∧ q.b < 65536) :
    bucketIndex depth p = .ok (p.r / 2 ^ (16 - depth) * 2 ^ (2 * depth)
        + p.g / 2 ^ (16 - depth) * 2 ^ depth + p.b / 2 ^ (16 - depth)) ∧
      (p.r / 2 ^ (16 - depth) < 2 ^ depth ∧ p.g / 2 ^ (16 - depth) < 2 ^ depth ∧
        p.b / 2 ^ (16 - depth) < 2 ^ depth) ∧
      p.r / 2 ^ (16 - depth) * 2 ^ (2 * depth)
        + p.g / 2 ^ (16 - depth) * 2 ^ depth + p.b / 2 ^ (16 - depth) < 2 ^ (3 * depth) ∧
      2 ^ (3 * depth) ≤ 2 ^ 32 ∧
      (bucketIndex depth p = bucketIndex depth q ↔
        p.r / 2 ^ (16 - depth) = q.r / 2 ^ (16 - depth) ∧
        p.g / 2 ^ (16 - depth) = q.g / 2 ^ (16 - depth) ∧
        p.b / 2 ^ (16 - depth) = q.b / 2 ^ (16 - depth)) := by
  obtain ⟨hpe, hplt⟩ := bucketIndex_eq depth p hd hp.1 hp.2.1 hp.2.2
  obtain ⟨hqe, _⟩ := bucketIndex_eq depth q hd hq.1 hq.2.1 hq.2.2
  have hpr := quantised_lt p.r depth hp.1 (by omega)
  have hpg := quantised_lt p.g depth hp.2.1 (by omega)
  have hpb := quantised_lt p.b depth hp.2.2 (by omega)
  have hqg := quantised_lt q.g depth hq.2.1 (by omega)
  have hqb := quantised_lt q.b depth hq.2.2 (by omega)
  refine ⟨hpe, ⟨hpr, hpg, hpb⟩, hplt, Nat.pow_le_pow_right (by norm_num) (by omega), ?_⟩
  rw [hpe, hqe]
  constructor
  · intro h
    have hn : p.r / 2 ^ (16 - depth) * 2 ^ (2 * depth)
          + p.g / 2 ^ (16 - depth) * 2 ^ depth + p.b / 2 ^ (16 - depth)
        = q.r / 2 ^ (16 - depth) * 2 ^ (2 * depth)
          + q.g / 2 ^ (16 - depth) * 2 ^ depth + q.b / 2 ^ (16 - depth) := by
      injection h
    have h2 : 2 ^ (2 * depth) = 2 ^ depth * 2 ^ depth := by rw [← pow_add]; congr 1; omega
    rw [h2, ← Nat.mul_assoc, ← Nat.mul_assoc, ← Nat.add_mul, ← Nat.add_mul] at hn
    obtain ⟨hrg, hb⟩ := two_digits_inj _ _ _ _ _ hpb hqb hn
    obtain ⟨hr, hg⟩ := two_digits_inj _ _ _ _ _ hpg hqg hrg
    exact ⟨hr, hg, hb⟩
  · rintro ⟨hr, hg, hb⟩
    rw [hr, hg, hb]

/-- Witness for C14: a red and a blue pixel at depth 3. -/
theorem bucketIndex_three_digits_witness :
    bucketIndex 3 ⟨65535, 0, 0⟩ = .ok (65535 / 2 ^ (16 - 3) * 2 ^ (2 * 3)
        + 0 / 2 ^ (16 - 3) * 2 ^ 3 + 0 / 2 ^ (16 - 3)) ∧
      (65535 / 2 ^ (16 - 3) < 2 ^ 3 ∧ 0 / 2 ^ (16 - 3) < 2 ^ 3 ∧ 0 / 2 ^ (16 - 3) < 2 ^ 3) ∧
      65535 / 2 ^ (16 - 3) * 2 ^ (2 * 3)
        + 0 / 2 ^ (16 - 3) * 2 ^ 3 + 0 / 2 ^ (16 - 3) < 2 ^ (3 * 3) ∧
      2 ^ (3 * 3) ≤ 2 ^ 32 ∧
      (bucketIndex 3 ⟨65535, 0, 0⟩ = bucketIndex 3 ⟨0, 0, 65535⟩ ↔
        65535 / 2 ^ (16 - 3) = 0 / 2 ^ (16 - 3) ∧
        0 / 2 ^ (16 - 3) = 0 / 2 ^ (16 - 3) ∧
        0 / 2 ^ (16 - 3) = 65535 / 2 ^ (16 - 3)) :=
  bucketIndex_three_digits 3 ⟨65535, 0, 0⟩ ⟨0, 0, 65535⟩ (by decide)
    ⟨by decide, by decide, by decide⟩ ⟨by decide, by decide, by decide⟩


/-! ## Worker task: proofs -/

/-- C12: for every group of directory entries whose extractions each either
succeed or fail with an error, `processSlice` sends, in entry order, exactly the
histograms of the entries that are not directories, have extension `.jpg` and
extract successfully: a failing extraction skips that entry only, and the
entries after it are still processed. -/
theorem processSlice_sends_eligible (env : Env) (imageDatasetDirectory : String) (depth : Nat)
    (slice : List DirEntry)
    (hout : ∀ f ∈ slice, (!f.IsDir && env.ext f.Name == ".jpg") = true →
      (∃ h, computeHistogram env (env.join imageDatasetDirectory f.Name) depth = .ok h) ∨
        computeHistogram env (env.join imageDatasetDirectory f.Name) depth
          = .error .decodeError) :
    processSlice env imageDatasetDirectory depth slice
      = .ok (slice.filterMap (sentFor env imageDatasetDirectory depth)) := by
  induction slice with
  | nil => rfl
  | cons file rest ih =>
    have ih' := ih fun f hf => hout f (List.mem_cons_of_mem _ hf)
    unfold processSlice
    by_cases he : (!file.IsDir && env.ext file.Name == ".jpg") = true
    · rw [if_pos he]
      rcases hout file (List.mem_cons_self _ _) he with ⟨h, hh⟩ | hh
      · have hs : sentFor env imageDatasetDirectory depth file = some h := by
          unfold sentFor
          rw [if_pos he, hh]
        rw [List.filterMap_cons_some hs]
        simp only [hh, ih']
      · have hs : sentFor env imageDatasetDirectory depth file = none := by
          unfold sentFor
          rw [if_pos he, hh]
        rw [List.filterMap_cons_none hs]
        simp only [hh, ih']
    · have hs : sentFor env imageDatasetDirectory depth file = none := by
        unfold sentFor
        rw [if_neg he]
      rw [if_neg he, List.filterMap_cons_none hs]
      exact ih'


/-- Witness for C12: a group with a good image, an undecodable one, a directory,
a text file and another good image. -/
theorem processSlice_sends_eligible_witness :
    processSlice mixedEnv "data" 3
        [⟨"a.jpg", false⟩, ⟨"bad.jpg", false⟩, ⟨"album.jpg", true⟩, ⟨"notes.txt", false⟩,
          ⟨"c.jpg", false⟩]
      = .ok (List.filterMap (sentFor mixedEnv "data" 3)
        [⟨"a.jpg", false⟩, ⟨"bad.jpg", false⟩, ⟨"album.jpg", true⟩, ⟨"notes.txt", false⟩,
          ⟨"c.jpg", false⟩]) := by
  apply processSlice_sends_eligible
  intro f hf he
  simp only [List.mem_cons, List.mem_singleton, List.not_mem_nil, or_false] at hf
  rcases hf with rfl | rfl | rfl | rfl | rfl
  · obtain ⟨h, hc, _⟩ := computeHistogram_spec mixedEnv (mixedEnv.join "data" "a.jpg")
      sampleImage 3 rfl (by decide) (by decide)
    exact Or.inl ⟨h, hc⟩
  · right
    unfold computeHistogram
    have hd : mixedEnv.decode (mixedEnv.join "data" "bad.jpg") = .error .decodeError := rfl
    rw [hd]
  · exact absurd he (by decide)
  · exact absurd he (by decide)
  · obtain ⟨h, hc, _⟩ := computeHistogram_spec mixedEnv (mixedEnv.join "data" "c.jpg")
      sampleImage 3 rfl (by decide) (by decide)
    exact Or.inl ⟨h, hc⟩


/-! ## Pipeline: histogram lengths -/

/-- The pixel loop keeps the number of buckets. -/
theorem countLoop_length (depth : Nat) : ∀ (ps : List Pixel) (histogram out : List ℚ)
    (t t' : Nat), countLoop depth ps histogram t = .ok (out, t') →
    out.length = histogram.length
  | [], histogram, out, t, t', h => by
    simp only [countLoop, Except.ok.injEq, Prod.mk.injEq] at h
    rw [h.1]
  | p :: ps, histogram, out, t, t', h => by
    unfold countLoop at h
    cases hb : bucketIndex depth p with
    | error e => rw [hb] at h; simp at h
    | ok index =>
      rw [hb] at h
      cases hc : histogram[index]? with
      | none => simp only [hc] at h; simp at h
      | some c =>
        simp only [hc] at h
        rw [countLoop_length depth ps _ out _ t' h, List.length_set]

/-- A histogram returned by `computeHistogram` has as many buckets as `make`
was asked for. -/
theorem computeHistogram_length (env : Env) (imagePath : String) (depth : Nat) (h : Histo)
    (hc : computeHistogram env imagePath depth = .ok h) : histLen depth = .ok h.H.length := by
  unfold computeHistogram at hc
  cases hd : env.decode imagePath with
  | error e => rw [hd] at hc; simp at hc
  | ok img =>
    rw [hd] at hc
    cases hl : histLen depth with
    | error e => simp only [hl] at hc; simp at hc
    | ok len =>
      simp only [hl] at hc
      cases hcl : countLoop depth img.pixels (List.replicate len 0) 0 with
      | error e => simp only [hcl] at hc; simp at hc
      | ok r =>
        obtain ⟨out, t⟩ := r
        simp only [hcl, Except.ok.injEq] at hc
        rw [← hc]
        simp [countLoop_length depth _ _ out 0 t hcl]

/-- Every histogram `processSlice` sends was returned by `computeHistogram` at
the given depth. -/
theorem processSlice_mem (env : Env) (imageDatasetDirectory : String) (depth : Nat) :
    ∀ (slice : List DirEntry) (sent : List Histo),
      processSlice env imageDatasetDirectory depth slice = .ok sent →
      ∀ h ∈ sent, ∃ path, computeHistogram env path depth = .ok h
  | [], sent, hs, h, hh => by
    simp only [processSlice, Except.ok.injEq] at hs
    rw [← hs] at hh
    simp at hh
  | file :: rest, sent, hs, h, hh => by
    unfold processSlice at hs
    split_ifs at hs with he
    · cases hc : computeHistogram env (env.join imageDatasetDirectory file.Name) depth with
      | error e =>
        rw [hc] at hs
        cases e <;> simp only at hs <;> first
          | exact processSlice_mem env imageDatasetDirectory depth rest sent hs h hh
          | simp at hs
      | ok histo =>
        rw [hc] at hs
        cases hr : processSlice env imageDatasetDirectory depth rest with
        | error e => simp only [hr] at hs; simp at hs
        | ok sent' =>
          simp only [hr, Except.ok.injEq] at hs
          rw [← hs] at hh
          rcases List.mem_cons.mp hh with h1 | h1
          · exact ⟨_, h1 ▸ hc⟩
          · exact processSlice_mem env imageDatasetDirectory depth rest sent' hr h h1
    · exact processSlice_mem env imageDatasetDirectory depth rest sent hs h hh

/-- Every histogram `main` receives was returned by `computeHistogram` at the
depth handed to the tasks. -/
theorem Received.mem {env : Env} {imageDatasetDirectory : String} {depth : Nat}
    {slices : List (List DirEntry)} {received : List Histo}
    (hr : Received env imageDatasetDirectory depth slices received) :
    ∀ h ∈ received, ∃ path, computeHistogram env path depth = .ok h := by
  obtain ⟨sents, hf, hp⟩ := hr
  intro h hh
  obtain ⟨sent, hsent, hmem⟩ := List.mem_flatten.mp (hp.mem_iff.mp hh)
  obtain ⟨hlen, hz⟩ := List.forall₂_iff_zip.mp hf
  obtain ⟨n, hn, hget⟩ := List.mem_iff_getElem.mp hsent
  have hn' : n < slices.length := hlen ▸ hn
  have hzip : (slices[n], sents[n]) ∈ slices.zip sents := by
    rw [List.mem_iff_getElem]
    exact ⟨n, by simpa using ⟨hn', hn⟩, by simp⟩
  exact processSlice_mem env imageDatasetDirectory depth _ _ (hz hzip) h (hget ▸ hmem)


/-- C13: a histogram returned by `computeHistogram` at a depth D up to 21 (so
at every number of bits, 0 to 16, that can be kept of a 16-bit channel) has
exactly `2^(3*D)` buckets; the query histogram and every histogram `main`
receives are computed at depth 3 and have 512 buckets each, so every call
`compareHistograms(queryHisto, histo)` of the receive loop returns a score (no
index out of range) and the loop returns its map. -/
theorem pipeline_histograms_have_equal_length (env : Env)
    (imagePath queryImageFilename imageDatasetDirectory : String) (depth : Nat)
    (h queryHisto : Histo) (slices : List (List DirEntry)) (received : List Histo)
    (hd : depth ≤ 21) (hh : computeHistogram env imagePath depth = .ok h)
    (hq : computeHistogram env queryImageFilename 3 = .ok queryHisto)
    (hr : Received env imageDatasetDirectory 3 slices received) :
    h.H.length = 2 ^ (3 * depth) ∧ queryHisto.H.length = 512 ∧
      (∀ histo ∈ received, histo.H.length = 512 ∧ queryHisto.H.length = histo.H.length ∧
        ∃ score, compareHistograms queryHisto histo = .ok score) ∧
      ∃ scores, collectScores queryHisto received [] = .ok scores := by
  have hlen : ∀ (p : String) (d : Nat) (x : Histo), d ≤ 21 →
      computeHistogram env p d = .ok x → x.H.length = 2 ^ (3 * d) := by
    intro p d x hd21 hx
    have hl := computeHistogram_length env p d x hx
    unfold histLen at hl
    by_cases h15 : d ≤ 15
    · rw [if_pos h15] at hl
      injection hl with hl
      exact hl.symm
    · rw [if_neg h15, if_pos hd21] at hl
      simp at hl
  have hq512 : queryHisto.H.length = 512 := hlen _ 3 _ (by decide) hq
  have hr512 : ∀ histo ∈ received, histo.H.length = 512 := by
    intro histo hm
    obtain ⟨path, hp⟩ := hr.mem histo hm
    exact hlen _ 3 _ (by decide) hp
  refine ⟨hlen _ _ _ hd hh, hq512, fun histo hm => ?_, ?_⟩
  · have he : queryHisto.H.length = histo.H.length := by rw [hq512, hr512 histo hm]
    exact ⟨hr512 histo hm, he, _, compareHistograms_eq queryHisto histo he⟩
  · exact collectScores_ok queryHisto received [] fun histo hm => by
      rw [hq512, hr512 histo hm]

/-- Witness for C13: the sample image as query and as the one dataset file. -/
theorem pipeline_histograms_have_equal_length_witness :
    ∃ q a, computeHistogram sampleEnv "query.jpg" 3 = .ok q ∧
      Received sampleEnv "data" 3 [[⟨"a.jpg", false⟩]] [a] ∧
      q.H.length = 2 ^ (3 * 3) ∧ q.H.length = 512 ∧
      (∀ histo ∈ [a], histo.H.length = 512 ∧ q.H.length = histo.H.length ∧
        ∃ score, compareHistograms q histo = .ok score) ∧
      ∃ scores, collectScores q [a] [] = .ok scores := by
  obtain ⟨q, hq, _⟩ := computeHistogram_spec sampleEnv "query.jpg" sampleImage 3 rfl
    (by decide) (by decide)
  obtain ⟨a, ha, _⟩ := computeHistogram_spec sampleEnv (sampleEnv.join "data" "a.jpg")
    sampleImage 3 rfl (by decide) (by decide)
  have hp : processSlice sampleEnv "data" 3 [⟨"a.jpg", false⟩] = .ok [a] := by
    unfold processSlice
    rw [if_pos (by decide)]
    simp only [ha, processSlice]
  have hr : Received sampleEnv "data" 3 [[⟨"a.jpg", false⟩]] [a] :=
    ⟨[[a]], List.Forall₂.cons hp List.Forall₂.nil, by simp⟩
  exact ⟨q, a, hq, hr,
    pipeline_histograms_have_equal_length sampleEnv "query.jpg" "query.jpg" "data" 3 q q
      [[⟨"a.jpg", false⟩]] [a] (by decide) hq hq hr⟩


/-! ## Aggregator: proofs -/

/-- The entries of the map after an assignment, when its keys are distinct. -/
theorem mem_mapSet_iff : ∀ (m : List (String × ℚ)) (name : String) (score : ℚ) (n : String)
    (s : ℚ), (m.map Prod.fst).Nodup →
    ((n, s) ∈ mapSet m name score ↔ (n = name ∧ s = score) ∨ (n ≠ name ∧ (n, s) ∈ m))
  | [], name, score, n, s, _ => by
    simp [mapSet]
  | (k, v) :: rest, name, score, n, s, hnd => by
    rw [List.map_cons, List.nodup_cons] at hnd
    obtain ⟨hk, hrest⟩ := hnd
    have hkey : ∀ x, (n, x) ∈ rest → n ≠ k := by
      intro x hx hnk
      have hmem : n ∈ rest.map Prod.fst := List.mem_map_of_mem Prod.fst hx
      rw [hnk] at hmem
      exact hk hmem
    unfold mapSet
    by_cases hkn : k = name
    · subst hkn
      rw [if_pos rfl]
      simp only [List.mem_cons, Prod.mk.injEq]
      constructor
      · rintro (⟨h1, h2⟩ | h)
        · exact Or.inl ⟨h1, h2⟩
        · exact Or.inr ⟨hkey s h, Or.inr h⟩
      · rintro (⟨h1, h2⟩ | ⟨h1, h2 | h2⟩)
        · exact Or.inl ⟨h1, h2⟩
        · exact absurd h2.1 h1
        · exact Or.inr h2
    · rw [if_neg hkn]
      simp only [List.mem_cons, Prod.mk.injEq, mem_mapSet_iff rest name score n s hrest]
      constructor
      · rintro (⟨h1, h2⟩ | h | ⟨h1, h2⟩)
        · exact Or.inr ⟨h1 ▸ hkn, Or.inl ⟨h1, h2⟩⟩
        · exact Or.inl h
        · exact Or.inr ⟨h1, Or.inr h2⟩
      · rintro (h | ⟨h1, h2 | h2⟩)
        · exact Or.inr (Or.inl h)
        · exact Or.inl h2
        · exact Or.inr (Or.inr ⟨h1, h2⟩)

/-- The defining equation of `lastNamed` on a non-empty sequence. -/
theorem lastNamed_cons (histo : Histo) (rest : List Histo) (name : String) :
    lastNamed (histo :: rest) name =
      match lastNamed rest name with
      | some later => some later
      | none => if histo.Name = name then some histo else none := rfl

/-- The last histogram with a name is in the sequence and carries that name. -/
theorem lastNamed_some : ∀ (hs : List Histo) (name : String) (h : Histo),
    lastNamed hs name = some h → h ∈ hs ∧ h.Name = name
  | [], _, _, hl => by simp [lastNamed] at hl
  | histo :: rest, name, h, hl => by
    unfold lastNamed at hl
    cases hr : lastNamed rest name with
    | some later =>
      rw [hr] at hl
      simp only [Option.some.injEq] at hl
      obtain ⟨h1, h2⟩ := lastNamed_some rest name later hr
      exact ⟨List.mem_cons_of_mem _ (hl ▸ h1), hl ▸ h2⟩
    | none =>
      rw [hr] at hl
      simp only at hl
      split_ifs at hl with hn
      simp only [Option.some.injEq] at hl
      exact ⟨hl ▸ List.mem_cons_self _ _, hl ▸ hn⟩

/-- A name has a last histogram exactly when it occurs in the sequence. -/
theorem lastNamed_eq_none : ∀ (hs : List Histo) (name : String),
    lastNamed hs name = none ↔ name ∉ hs.map fun h => h.Name
  | [], _ => by simp [lastNamed]
  | histo :: rest, name => by
    unfold lastNamed
    cases hr : lastNamed rest name with
    | some later =>
      have hin : name ∈ rest.map fun h => h.Name := by
        by_contra hc
        rw [(lastNamed_eq_none rest name).mpr hc] at hr
        simp at hr
      simp [hin]
    | none =>
      have hnot := (lastNamed_eq_none rest name).mp hr
      simp only [List.map_cons, List.mem_cons, not_or]
      split_ifs with hn
      · simp [hn]
      · simp only [true_iff]
        exact ⟨fun h => hn h.symm, hnot⟩

/-- The map after the receive loop: an entry `(name, score)` is in it exactly
when `score` is the comparison with the last received histogram of that name,
or, for a name that was not received, when it was in the initial map. -/
theorem collectScores_entries (queryHisto : Histo) :
    ∀ (hs : List Histo) (m m' : List (String × ℚ)),
      collectScores queryHisto hs m = .ok m' → (m.map Prod.fst).Nodup →
      ∀ (n : String) (s : ℚ), (n, s) ∈ m' ↔
        ((∃ h, lastNamed hs n = some h ∧ compareHistograms queryHisto h = .ok s) ∨
          (lastNamed hs n = none ∧ (n, s) ∈ m))
  | [], m, m', hc, _, n, s => by
    simp only [collectScores, Except.ok.injEq] at hc
    subst hc
    simp [lastNamed]
  | histo :: rest, m, m', hc, hnd, n, s => by
    unfold collectScores at hc
    cases hscore : compareHistograms queryHisto histo with
    | error e => rw [hscore] at hc; simp at hc
    | ok score =>
      rw [hscore] at hc
      simp only at hc
      rw [collectScores_entries queryHisto rest _ m' hc
        (nodup_keys_mapSet m histo.Name score hnd) n s,
        mem_mapSet_iff m histo.Name score n s hnd]
      rw [lastNamed_cons]
      cases hr : lastNamed rest n with
      | some later => simp
      | none =>
        by_cases hn : histo.Name = n
        · subst hn
          simp [hscore, eq_comm]
        · have hn' : ¬ n = histo.Name := fun h => hn h.symm
          simp [hn, hn']


/-- `compareHistograms` returns a score when the second histogram has a bucket
for every bucket of the first. -/
theorem compareHistograms_ok (h1 h2 : Histo) (hlen : h1.H.length ≤ h2.H.length) :
    compareHistograms h1 h2 = .ok (intersectionScore h1.H h2.H) := by
  unfold compareHistograms
  rw [compareLoop_eq _ _ _ hlen, zero_add]

/-- The receive loop started on the empty map: it returns a map with distinct
keys whose entries are the comparisons with the last received histogram of each
name. -/
theorem collectScores_from_empty (queryHisto : Histo) (emitted : List Histo)
    (hlen : ∀ h ∈ emitted, queryHisto.H.length ≤ h.H.length) :
    ∃ scores, collectScores queryHisto emitted [] = .ok scores ∧
      (scores.map Prod.fst).Nodup ∧
      ∀ name score, (name, score) ∈ scores ↔
        ∃ h, lastNamed emitted name = some h ∧ compareHistograms queryHisto h = .ok score := by
  obtain ⟨scores, hc⟩ := collectScores_ok queryHisto emitted [] hlen
  refine ⟨scores, hc, (collectScores_spec queryHisto emitted [] scores hc List.nodup_nil).1, ?_⟩
  intro name score
  rw [collectScores_entries queryHisto emitted [] scores hc List.nodup_nil name score]
  simp

/-- C17: collecting any sequence of received histograms (each with a bucket for
every bucket of the query histogram) returns a map, without error; the map has
exactly one entry per distinct name in the sequence, and the value under a name
is `compareHistograms(queryHisto, h)` for the last received histogram `h` of
that name, so a repeated name overwrites the earlier entry. -/
theorem collectScores_last_wins (queryHisto : Histo) (emitted : List Histo)
    (hlen : ∀ h ∈ emitted, queryHisto.H.length ≤ h.H.length) :
    ∃ scores, collectScores queryHisto emitted [] = .ok scores ∧
      (scores.map Prod.fst).Nodup ∧
      (∀ name, name ∈ scores.map Prod.fst ↔ name ∈ emitted.map fun h => h.Name) ∧
      ∀ name score, (name, score) ∈ scores ↔
        ∃ h, lastNamed emitted name = some h ∧ compareHistograms queryHisto h = .ok score := by
  obtain ⟨scores, hc, hnd, hent⟩ := collectScores_from_empty queryHisto emitted hlen
  refine ⟨scores, hc, hnd, fun name => ?_, hent⟩
  constructor
  · intro hk
    obtain ⟨e, he, hname⟩ := List.mem_map.mp hk
    obtain ⟨h, hl, _⟩ := (hent e.1 e.2).mp he
    obtain ⟨hm, hn⟩ := lastNamed_some emitted e.1 h hl
    rw [← hname]
    exact List.mem_map.mpr ⟨h, hm, hn⟩
  · intro hn
    cases hl : lastNamed emitted name with
    | none => exact absurd hn ((lastNamed_eq_none emitted name).mp hl)
    | some h =>
      have hm := (lastNamed_some emitted name h hl).1
      have he := (hent name _).mpr ⟨h, hl, compareHistograms_ok queryHisto h (hlen h hm)⟩
      exact List.mem_map.mpr ⟨_, he, rfl⟩

/-- Witness for C17: the name `a.jpg` is received twice. -/
theorem collectScores_last_wins_witness :
    ∃ scores, collectScores ⟨"q.jpg", [1/2, 1/2]⟩
        [⟨"a.jpg", [1/2, 1/2]⟩, ⟨"b.jpg", [1, 0]⟩, ⟨"a.jpg", [0, 1]⟩] [] = .ok scores ∧
      (scores.map Prod.fst).Nodup ∧
      (∀ name, name ∈ scores.map Prod.fst ↔
        name ∈ ([⟨"a.jpg", [1/2, 1/2]⟩, ⟨"b.jpg", [1, 0]⟩, ⟨"a.jpg", [0, 1]⟩] : List Histo).map
          fun h => h.Name) ∧
      ∀ name score, (name, score) ∈ scores ↔
        ∃ h, lastNamed [⟨"a.jpg", [1/2, 1/2]⟩, ⟨"b.jpg", [1, 0]⟩, ⟨"a.jpg", [0, 1]⟩] name = some h ∧
          compareHistograms ⟨"q.jpg", [1/2, 1/2]⟩ h = .ok score :=
  collectScores_last_wins ⟨"q.jpg", [1/2, 1/2]⟩
    [⟨"a.jpg", [1/2, 1/2]⟩, ⟨"b.jpg", [1, 0]⟩, ⟨"a.jpg", [0, 1]⟩] (by simp)


/-! ## float64 values that need not be numbers: proofs -/

/-- On numbers the loop of the comparator is the loop over the rationals. -/
theorem WithNaN.compareLoop_fin : ∀ (h1 h2 : List ℚ) (acc : ℚ),
    WithNaN.compareLoop (h1.map F64.fin) (h2.map F64.fin) (.fin acc)
      = (SimilaritySearch.compareLoop h1 h2 acc).map F64.fin
  | [], _, _ => rfl
  | _ :: _, [], _ => rfl
  | a :: h1, b :: h2, acc => by
    have hmin : WithNaN.min (.fin a) (.fin b) = .fin (SimilaritySearch.min a b) := by
      unfold WithNaN.min SimilaritySearch.min F64.lt
      by_cases h : a < b <;> simp [h]
    simp only [List.map_cons, WithNaN.compareLoop, SimilaritySearch.compareLoop, hmin, F64.add]
    exact WithNaN.compareLoop_fin h1 h2 _

/-- The pixel loop adds one to `totalPixels` per pixel. -/
theorem countLoop_total (depth : Nat) : ∀ (ps : List Pixel) (histogram out : List ℚ)
    (t t' : Nat), countLoop depth ps histogram t = .ok (out, t') → t' = t + ps.length
  | [], histogram, out, t, t', h => by
    simp only [countLoop, Except.ok.injEq, Prod.mk.injEq] at h
    simp [h.2]
  | p :: ps, histogram, out, t, t', h => by
    unfold countLoop at h
    cases hb : bucketIndex depth p with
    | error e => rw [hb] at h; simp at h
    | ok index =>
      rw [hb] at h
      cases hc : histogram[index]? with
      | none => simp only [hc] at h; simp at h
      | some c =>
        simp only [hc] at h
        rw [countLoop_total depth ps _ out _ t' h, List.length_cons]
        omega

/-- For an image with a pixel both versions of `computeHistogram` return the
same histogram, all of whose buckets are numbers. -/
theorem WithNaN.computeHistogram_fin (env : Env) (imagePath : String) (img : Image)
    (depth : Nat) (h : SimilaritySearch.Histo)
    (hdec : env.decode imagePath = .ok img) (hpix : img.pixels ≠ [])
    (hc : SimilaritySearch.computeHistogram env imagePath depth = .ok h) :
    WithNaN.computeHistogram env imagePath depth = .ok ⟨h.Name, h.H.map F64.fin⟩ := by
  unfold SimilaritySearch.computeHistogram at hc
  unfold WithNaN.computeHistogram
  rw [hdec] at hc ⊢
  cases hl : histLen depth with
  | error e => simp only [hl] at hc; simp at hc
  | ok len =>
    simp only [hl] at hc ⊢
    cases hcl : countLoop depth img.pixels (List.replicate len 0) 0 with
    | error e => simp only [hcl] at hc; simp at hc
    | ok r =>
      obtain ⟨out, t⟩ := r
      simp only [hcl, Except.ok.injEq] at hc ⊢
      have ht := countLoop_total depth _ _ out 0 t hcl
      obtain ⟨n, hn⟩ : ∃ n, t = n + 1 :=
        ⟨img.pixels.length - 1, by have := List.length_pos.mpr hpix; omega⟩
      rw [← hc, hn]
      simp [F64.divCount]

/-- For an image without pixels, at a depth up to 15, every bucket is `0.0 / 0.0`:
the histogram that is returned holds NaN in all its buckets. -/
theorem WithNaN.computeHistogram_all_nan (env : Env) (imagePath : String) (img : Image)
    (depth : Nat) (hdec : env.decode imagePath = .ok img) (hpix : img.pixels = [])
    (hd : depth ≤ 15) :
    WithNaN.computeHistogram env imagePath depth
      = .ok ⟨env.base imagePath, List.replicate (2 ^ (3 * depth)) .nan⟩ := by
  have hL : histLen depth = .ok (2 ^ (3 * depth)) := by
    unfold histLen
    rw [if_pos hd]
  unfold WithNaN.computeHistogram
  simp only [hdec, hL, hpix, countLoop]
  simp [F64.divCount]

/-- Adding NaN gives NaN. -/
theorem F64.add_nan (x : F64) : x.add .nan = .nan := by
  cases x <;> rfl

/-- Nothing is smaller than NaN, so `min(a, NaN)` is NaN. -/
theorem WithNaN.min_nan_right (a : F64) : WithNaN.min a .nan = .nan := by
  cases a <;> rfl

/-- NaN is smaller than nothing, so `min(NaN, b)` is `b`. -/
theorem WithNaN.min_nan_left (b : F64) : WithNaN.min .nan b = b := by
  cases b <;> rfl

/-- Against buckets that are all NaN in second place, the loop returns NaN once
the accumulator is NaN. -/
theorem WithNaN.compareLoop_nan_right : ∀ (h1 : List F64),
    WithNaN.compareLoop h1 (List.replicate h1.length .nan) .nan = .ok .nan
  | [] => rfl
  | a :: h1 => by
    simp only [List.length_cons, List.replicate_succ, WithNaN.compareLoop,
      WithNaN.min_nan_right, F64.add_nan]
    exact WithNaN.compareLoop_nan_right h1

/-- Against buckets that are all NaN in first place, the loop adds up the
buckets in second place. -/
theorem WithNaN.compareLoop_nan_left : ∀ (h2 : List ℚ) (acc : ℚ),
    WithNaN.compareLoop (List.replicate h2.length .nan) (h2.map F64.fin) (.fin acc)
      = .ok (.fin (acc + h2.sum))
  | [], acc => by simp [WithNaN.compareLoop]
  | b :: h2, acc => by
    simp only [List.length_cons, List.replicate_succ, List.map_cons, WithNaN.compareLoop,
      WithNaN.min_nan_left, F64.add, List.sum_cons]
    rw [WithNaN.compareLoop_nan_left h2 (acc + b), add_assoc]

/-- The histograms of the image without pixels and of the sample image at depth
3: the first holds 512 times NaN, the second 512 numbers that sum to 1. -/
theorem WithNaN.empty_and_sample_histograms :
    ∃ qs : List ℚ, qs.length = 512 ∧ qs.sum = 1 ∧
      WithNaN.computeHistogram emptyImageEnv "empty.jpg" 3
        = .ok ⟨"empty.jpg", List.replicate 512 .nan⟩ ∧
      WithNaN.computeHistogram sampleEnv "a.jpg" 3 = .ok ⟨"a.jpg", qs.map F64.fin⟩ := by
  obtain ⟨h, hc, hname, hlen, _, hsum⟩ :=
    computeHistogram_spec sampleEnv "a.jpg" sampleImage 3 rfl (by decide) (by decide)
  refine ⟨h.H, hlen, hsum (by decide), ?_, ?_⟩
  · exact WithNaN.computeHistogram_all_nan emptyImageEnv "empty.jpg" emptyImage 3 rfl
      (by decide) (by decide)
  · rw [WithNaN.computeHistogram_fin sampleEnv "a.jpg" sampleImage 3 h rfl (by decide) hc, hname]
    rfl


/-- Against NaN buckets in second place the loop returns NaN, whatever the
accumulator, as soon as there is a bucket. -/
theorem WithNaN.compareLoop_nan_right_of_ne_nil (h1 : List F64) (acc : F64) (hne : h1 ≠ []) :
    WithNaN.compareLoop h1 (List.replicate h1.length .nan) acc = .ok .nan := by
  cases h1 with
  | nil => exact absurd rfl hne
  | cons a rest =>
    simp only [List.length_cons, List.replicate_succ, WithNaN.compareLoop,
      WithNaN.min_nan_right, F64.add_nan]
    exact WithNaN.compareLoop_nan_right rest

/-- The score the receive loop computes for the image without pixels, the
query being the sample image: NaN. -/
theorem WithNaN.score_of_empty_image :
    ∃ q e : WithNaN.Histo,
      WithNaN.computeHistogram sampleEnv "a.jpg" 3 = .ok q ∧
      WithNaN.computeHistogram emptyImageEnv "empty.jpg" 3 = .ok e ∧
      WithNaN.compareHistograms q e = .ok .nan := by
  obtain ⟨qs, hlen, _, he, hq⟩ := WithNaN.empty_and_sample_histograms
  refine ⟨_, _, hq, he, ?_⟩
  have hne : qs.map F64.fin ≠ [] := by
    intro h
    rw [List.map_eq_nil_iff] at h
    rw [h] at hlen
    simp at hlen
  have h512 : (qs.map F64.fin).length = 512 := by rw [List.length_map, hlen]
  have := WithNaN.compareLoop_nan_right_of_ne_nil (qs.map F64.fin) (.fin 0) hne
  rw [h512] at this
  exact this

/-- C6 (the program on the histogram of an image without pixels and the
histogram of the sample image, both of 512 buckets): with the NaN histogram in
first place `compareHistograms` returns 1, the sum of the other histogram; with
it in second place it returns NaN. -/
theorem compareHistograms_empty_image_asymmetric :
    ∃ e g : WithNaN.Histo,
      WithNaN.computeHistogram emptyImageEnv "empty.jpg" 3 = .ok e ∧
      WithNaN.computeHistogram sampleEnv "a.jpg" 3 = .ok g ∧
      e.H.length = g.H.length ∧
      WithNaN.compareHistograms e g = .ok (.fin 1) ∧
      WithNaN.compareHistograms g e = .ok .nan := by
  obtain ⟨qs, hlen, hsum, he, hg⟩ := WithNaN.empty_and_sample_histograms
  refine ⟨_, _, he, hg, ?_, ?_, ?_⟩
  · show (List.replicate 512 F64.nan).length = (qs.map F64.fin).length
    rw [List.length_replicate, List.length_map, hlen]
  · have h := WithNaN.compareLoop_nan_left qs 0
    rw [hlen, hsum, zero_add] at h
    exact h
  · have hne : qs.map F64.fin ≠ [] := by
      intro h
      rw [List.map_eq_nil_iff] at h
      rw [h] at hlen
      simp at hlen
    have h := WithNaN.compareLoop_nan_right_of_ne_nil (qs.map F64.fin) (.fin 0) hne
    rw [List.length_map, hlen] at h
    exact h

/-- C9 (the program on a dataset of three images, one of them without pixels):
the score of the image without pixels is NaN, and when the iteration over the
map fills the slice in the order 0.25, NaN, 1, no comparison of the sort is
true, the slice stays as it is, and the report lists the score 0.25 before the
score 1. -/
theorem report_with_empty_image_not_sorted :
    (∃ q e : WithNaN.Histo,
      WithNaN.computeHistogram sampleEnv "a.jpg" 3 = .ok q ∧
      WithNaN.computeHistogram emptyImageEnv "empty.jpg" 3 = .ok e ∧
      WithNaN.compareHistograms q e = .ok .nan) ∧
    report [⟨"a.jpg", .fin (1/4)⟩, ⟨"empty.jpg", .nan⟩, ⟨"c.jpg", .fin 1⟩]
      = some [⟨"a.jpg", .fin (1/4)⟩, ⟨"empty.jpg", .nan⟩, ⟨"c.jpg", .fin 1⟩] ∧
    F64.lt (.fin (1/4)) (.fin 1) = true := by
  refine ⟨WithNaN.score_of_empty_image, rfl, ?_⟩
  norm_num [F64.lt]

/-- C10 (the program on a dataset of six images, one of them without pixels):
when the iteration over the map fills the slice in the order 0.4, 0.3, 0.2, 0.1,
NaN, 1, the sort leaves it as it is and the report is its first five pairs: the
image with the highest score, 1, is not reported, while images with the scores
0.4 to 0.1 are. -/
theorem report_with_empty_image_omits_best :
    (∃ q e : WithNaN.Histo,
      WithNaN.computeHistogram sampleEnv "a.jpg" 3 = .ok q ∧
      WithNaN.computeHistogram emptyImageEnv "empty.jpg" 3 = .ok e ∧
      WithNaN.compareHistograms q e = .ok .nan) ∧
    report [⟨"a.jpg", .fin (2/5)⟩, ⟨"b.jpg", .fin (3/10)⟩, ⟨"c.jpg", .fin (1/5)⟩,
        ⟨"d.jpg", .fin (1/10)⟩, ⟨"empty.jpg", .nan⟩, ⟨"f.jpg", .fin 1⟩]
      = some [⟨"a.jpg", .fin (2/5)⟩, ⟨"b.jpg", .fin (3/10)⟩, ⟨"c.jpg", .fin (1/5)⟩,
        ⟨"d.jpg", .fin (1/10)⟩, ⟨"empty.jpg", .nan⟩] ∧
    (⟨"f.jpg", .fin 1⟩ : nameScorePair) ∉
      ([⟨"a.jpg", .fin (2/5)⟩, ⟨"b.jpg", .fin (3/10)⟩, ⟨"c.jpg", .fin (1/5)⟩,
        ⟨"d.jpg", .fin (1/10)⟩, ⟨"empty.jpg", .nan⟩] : List nameScorePair) ∧
    F64.lt (.fin (2/5)) (.fin 1) = true := by
  refine ⟨WithNaN.score_of_empty_image, ?_, ?_, ?_⟩
  · norm_num [report, sortSlice, insertionSort, insertBack, less, F64.lt, printed]
  · simp
  · norm_num [F64.lt]

/-- C18 (the program on a dataset of three images, one of them without pixels):
the same three map entries, read by the iteration over the map in one order and
in the reverse order, are each left as they are by the sort, so the two reports
list the scores in different orders. -/
theorem report_with_empty_image_depends_on_order :
    (∃ q e : WithNaN.Histo,
      WithNaN.computeHistogram sampleEnv "a.jpg" 3 = .ok q ∧
      WithNaN.computeHistogram emptyImageEnv "empty.jpg" 3 = .ok e ∧
      WithNaN.compareHistograms q e = .ok .nan) ∧
    report [⟨"a.jpg", .fin (1/4)⟩, ⟨"empty.jpg", .nan⟩, ⟨"c.jpg", .fin 1⟩]
      = some [⟨"a.jpg", .fin (1/4)⟩, ⟨"empty.jpg", .nan⟩, ⟨"c.jpg", .fin 1⟩] ∧
    report ([⟨"a.jpg", .fin (1/4)⟩, ⟨"empty.jpg", .nan⟩, ⟨"c.jpg", .fin 1⟩] :
        List nameScorePair).reverse
      = some [⟨"c.jpg", .fin 1⟩, ⟨"empty.jpg", .nan⟩, ⟨"a.jpg", .fin (1/4)⟩] ∧
    ([⟨"a.jpg", .fin (1/4)⟩, ⟨"empty.jpg", .nan⟩, ⟨"c.jpg", .fin 1⟩] :
        List nameScorePair).map (fun p => p.Score)
      ≠ ([⟨"c.jpg", .fin 1⟩, ⟨"empty.jpg", .nan⟩, ⟨"a.jpg", .fin (1/4)⟩] :
        List nameScorePair).map (fun p => p.Score) := by
  refine ⟨WithNaN.score_of_empty_image, rfl, rfl, ?_⟩
  simp

end SimilaritySearch
